import Mathlib

/-!
Shallow embedding of the M2PY slicer core (src/JM_slicer/b_slice__main_V4.py and
src/JM_slicer/b_slice_stl.py) and proofs about it.

Modelling conventions:
* Python floats are embedded as rationals (ℚ); all the concrete inputs used in
  the theorems below have exact arithmetic in both worlds.
* Python raised exceptions are embedded as `Except String` errors.
* The coordinate key `'{0:.10},{1:.10}'.format(...)` (formatting to 10
  significant digits) is embedded as rounding to a normalized
  (signed mantissa, decimal exponent) pair; two numbers get the same formatted
  string exactly when they round to the same normalized pair.
* Python dicts are embedded as insertion-ordered association lists, which fixes
  one deterministic iteration order (Python 2 dict order is hash-dependent but
  likewise deterministic for a given set of keys).
-/

set_option maxRecDepth 100000

namespace M2PY

/-- 2D point: result of a plane intersection. -/
abbrev Point2 : Type := ℚ × ℚ

/-- 3D vertex of a facet. -/
abbrev Point3 : Type := ℚ × ℚ × ℚ

/-- A facet as loaded: a list of vertices (three for a triangle). -/
abbrev Facet : Type := List Point3

/-- Entry of the z-sorted facet list: (max vertex Z, min vertex Z, facet). -/
abbrev IFacet : Type := ℚ × ℚ × Facet

/-- A segment or path: Python represents both as a list of 2D points. -/
abbrev Seg : Type := List Point2

/-- Round half to even (the rounding used when a decimal representation of a
binary float is produced). -/
def rhe (q : ℚ) : ℤ :=
  let fl := ⌊q⌋
  let frac := q - (fl : ℚ)
  if frac < 1/2 then fl
  else if (1:ℚ)/2 < frac then fl + 1
  else if 2 ∣ fl then fl else fl + 1

/-- Base-10 digit counter with explicit fuel (structural recursion so that
kernel reduction works on concrete inputs). -/
def digCount : ℕ → ℕ → ℕ
  | 0, _ => 0
  | fuel + 1, n => if n = 0 then 0 else digCount fuel (n / 10) + 1

/-- Number of base-10 digits of a natural number (0 for 0). -/
def nDigits (n : ℕ) : ℕ := digCount n n

/-- Decimal exponent of a nonzero rational: the unique `e` with
`10 ^ e ≤ |x| < 10 ^ (e + 1)`. -/
def decExp (x : ℚ) : ℤ :=
  let p := x.num.natAbs
  let q := x.den
  let e0 : ℤ := (nDigits p : ℤ) - (nDigits q : ℤ)
  if (10 : ℚ) ^ e0 ≤ |x| then e0 else e0 - 1

/-- Quantize a rational to 10 significant decimal digits, returning a
normalized pair (signed mantissa, decimal exponent); 0 maps to (0, 0).
This models which numbers the Python format `'{0:.10}'` renders identically. -/
def q10 (x : ℚ) : ℤ × ℤ :=
  if x = 0 then (0, 0)
  else
    let e : ℤ := decExp x
    let m : ℤ := rhe (|x| * (10 : ℚ) ^ ((9 : ℤ) - e))
    let s : ℤ := if x < 0 then -1 else 1
    if m = 10 ^ 10 then (s * 10 ^ 9, e + 1) else (s * m, e)

/-- The key codomain: quantizations of the two coordinates (models the string
`'{0:.10},{1:.10}'.format(*point)`). -/
abbrev Key : Type := (ℤ × ℤ) × (ℤ × ℤ)

namespace LineMap

/-- `LineMap.key`: the quantization key of a 2D point. -/
def key (p : Point2) : Key := (q10 p.1, q10 p.2)

end LineMap

/-- `find_line_plane_intersection`: where the line from `a` to `b` meets the
plane at height `z`. -/
def find_line_plane_intersection (a b : Point3) (z : ℚ) : Point2 :=
  let dx := a.1 - b.1
  let dy := a.2.1 - b.2.1
  let dz := a.2.2 - b.2.2
  let z_z0 := z - b.2.2
  (z_z0 * (dx / dz) + b.1, z_z0 * (dy / dz) + b.2.1)

/-- `tri_above_below`: partition the vertices into those strictly above the
plane and those at or below it, preserving order. -/
def tri_above_below (tri : Facet) (z : ℚ) : Facet × Facet :=
  (tri.filter (fun p => decide (z < p.2.2)), tri.filter (fun p => decide (p.2.2 ≤ z)))

/-- The candidate intersection list built by the inner loops of
`slice_shape_at` (`for a in above: for b in below: line.append(...)`). -/
def crossing_line (tri : Facet) (z : ℚ) : Seg :=
  let ab := tri_above_below tri z
  ab.1.flatMap (fun a => ab.2.map (fun b => find_line_plane_intersection a b z))

/-- One iteration of the `slice_shape_at` loop body for a single facet entry:
`none` when the facet contributes no segment.  (The `line[0]`/`line[1]`
accesses are total here; for a three-vertex facet that crosses the plane the
candidate list always has exactly two points.) -/
def sliceFacet (f : IFacet) (z : ℚ) : Option Seg :=
  if z < f.2.1 then none
  else
    let ab := tri_above_below f.2.2 z
    if ab.1 = [] ∨ ab.2 = [] then none
    else
      match crossing_line f.2.2 z with
      | p :: q :: _ =>
          if LineMap.key p = LineMap.key q then none else some (crossing_line f.2.2 z)
      | _ => none

/-- `slice_shape_at`: the segments produced at height `z` from the facet list. -/
def slice_shape_at (facets : List IFacet) (z : ℚ) : List Seg :=
  facets.filterMap (fun f => sliceFacet f z)

/-- The LineMap state: an insertion-ordered association list from endpoint key
to the bucket of segments registered at that key. -/
abbrev LMap : Type := List (Key × List Seg)

instance : DecidableEq (Key × List Seg) := instDecidableEqProd

instance : DecidableEq LMap := instDecidableEqList

instance : DecidableEq (Seg × LMap) := instDecidableEqProd

namespace LineMap

/-- Dict lookup (`self._map.get(key, None)` / `self._map[key]`). -/
def find (m : LMap) (k : Key) : Option (List Seg) :=
  (m.find? (fun e => decide (e.1 = k))).map (fun e => e.2)

/-- Replace the bucket stored at a key, keeping its position. -/
def setBucket (m : LMap) (k : Key) (b : List Seg) : LMap :=
  m.map (fun e => if e.1 = k then (k, b) else e)

/-- `del self._map[key]`: remove an entry, keeping the order of the others. -/
def eraseKey (m : LMap) (k : Key) : LMap :=
  m.filter (fun e => decide (e.1 ≠ k))

/-- `self._map.setdefault(key, []).append(line)`. -/
def add (m : LMap) (k : Key) (l : Seg) : LMap :=
  match find m k with
  | some b => setBucket m k (b ++ [l])
  | none => m ++ [(k, [l])]

/-- `LineMap.__init__`: register every segment under the key of each of its
points. -/
def ofLines (lines : List Seg) : LMap :=
  lines.foldl (fun m line => line.foldl (fun m p => add m (key p) line) m) []

/-- `list.pop()`: remove and return the last element of a bucket. -/
def popLast (b : List Seg) : Option (Seg × List Seg) :=
  match b.getLast? with
  | none => none
  | some l => some (l, b.dropLast)

/-- `LineMap._pop_other_line`: find the first point of `line` whose key is not
`k`, deregister `line` from that point's bucket, and return the point.
Failure branches model the Python exceptions (`NameError` when every point of
the segment has key `k`; `KeyError`/`ValueError` when the registration
invariant is broken). -/
def pop_other_line (m : LMap) (k : Key) (line : Seg) : Except String (Point2 × LMap) :=
  match line.find? (fun p => !(decide (key p = k))) with
  | none => .error "NameError: local variable other_point referenced before assignment"
  | some other =>
    let k2 := key other
    match find m k2 with
    | none => .error "KeyError"
    | some b =>
      if line ∈ b then
        let b2 := b.erase line
        .ok (other, if b2 = [] then eraseKey m k2 else setBucket m k2 b2)
      else .error "ValueError: list.remove(x): x not in list"

/-- `LineMap.take_line`: pop an arbitrary segment (last of the bucket of the
first key in iteration order) and deregister it from both endpoints. -/
def take_line (m : LMap) : Except String (Seg × LMap) :=
  match m with
  | [] => .error "take_line: no line"
  | (k, b) :: rest =>
    match popLast b with
    | none => .error "IndexError: pop from empty list"
    | some (line, b2) =>
      match pop_other_line (if b2 = [] then rest else (k, b2) :: rest) k line with
      | .error e => .error e
      | .ok r => .ok (line, r.2)

/-- `LineMap.next_point`: take an unused segment registered at `p`'s key and
return its other endpoint, or `none` when no continuation exists. -/
def next_point (m : LMap) (p : Point2) : Except String (Option (Point2 × LMap)) :=
  match find m (key p) with
  | none => .ok none
  | some b =>
    match popLast b with
    | none => .error "IndexError: pop from empty list"
    | some (line, b2) =>
      match pop_other_line
          (if b2 = [] then eraseKey m (key p) else setBucket m (key p) b2) (key p) line with
      | .error e => .error e
      | .ok r => .ok (some r)

/-- Total number of registrations held by the map. -/
def size (m : LMap) : ℕ :=
  (m.map (fun e => e.2.length)).sum

end LineMap

/-- The inner `while point:` loop of `path_lines`: extend the path from its
last point while a continuation exists.  The fuel only guards termination; a
call with fuel larger than the number of remaining registrations never hits
the fuel branch. -/
def growPath : ℕ → LMap → Seg → Except String (Seg × LMap)
  | 0, _, _ => .error "fuel exhausted"
  | fuel + 1, m, path =>
    match path.getLast? with
    | none => .error "path has no last point"
    | some last =>
      match LineMap.next_point m last with
      | .error e => .error e
      | .ok none => .ok (path, m)
      | .ok (some (p, m2)) => growPath fuel m2 (path ++ [p])

/-- The outer loop of `path_lines`, also recording the map state at the moment
each path is emitted. -/
def pathTrace : ℕ → LMap → Except String (List (Seg × LMap))
  | 0, m => if m = [] then .ok [] else .error "fuel exhausted"
  | fuel + 1, m =>
    if m = [] then .ok []
    else
      match LineMap.take_line m with
      | .error e => .error e
      | .ok (line, m2) =>
        match growPath (LineMap.size m2 + 1) m2 line with
        | .error e => .error e
        | .ok (path, m3) =>
          match pathTrace fuel m3 with
          | .error e => .error e
          | .ok rest => .ok ((path, m3) :: rest)

/-- `path_lines` together with the emission-time map states. -/
def pathLinesTrace (lines : List Seg) : Except String (List (Seg × LMap)) :=
  let m := LineMap.ofLines lines
  pathTrace (LineMap.size m + 1) m

/-- `path_lines`: convert a list of segments into paths. -/
def path_lines (lines : List Seg) : Except String (List Seg) :=
  (pathLinesTrace lines).map (fun tr => tr.map (fun e => e.1))

/-- `bounding_cube`: axis-aligned bounding box over all vertices, starting
from the sentinel values used in the source. -/
def bounding_cube (facets : List Facet) : ℚ × ℚ × ℚ × ℚ × ℚ × ℚ :=
  facets.foldl
    (fun acc facet =>
      facet.foldl
        (fun acc p =>
          (min acc.1 p.1, max acc.2.1 p.1,
           min acc.2.2.1 p.2.1, max acc.2.2.2.1 p.2.1,
           min acc.2.2.2.2.1 p.2.2, max acc.2.2.2.2.2 p.2.2))
        acc)
    (99999, -99999, 99999, -99999, 99999, -99999)

/-- X extent of the bounding box of a facet list. -/
def xsizeOf (facets : List Facet) : ℚ :=
  let bc := bounding_cube facets
  bc.2.1 - bc.1

/-- Y extent of the bounding box of a facet list. -/
def ysizeOf (facets : List Facet) : ℚ :=
  let bc := bounding_cube facets
  bc.2.2.2.1 - bc.2.2.1

/-- Z extent of the bounding box of a facet list. -/
def zsizeOf (facets : List Facet) : ℚ :=
  let bc := bounding_cube facets
  bc.2.2.2.2.2 - bc.2.2.2.2.1

/-- `scale_to_fit`: scale and translate the facets; `scale = 0` models the
falsy `scale` argument (the width/height mode).  Returns
(width, height, minz, maxz, scaled facets); the error is the Python
`ZeroDivisionError` raised by `width / xsize` or `height / ysize`. -/
def scale_to_fit (facets : List Facet) (width height scale : ℚ) :
    Except String (ℚ × ℚ × ℚ × ℚ × List Facet) :=
  let bc := bounding_cube facets
  let minx := bc.1
  let maxx := bc.2.1
  let miny := bc.2.2.1
  let maxy := bc.2.2.2.1
  let minz := bc.2.2.2.2.1
  let maxz := bc.2.2.2.2.2
  let xsize := maxx - minx
  let ysize := maxy - miny
  let wh :=
    if (height < width ∧ xsize < ysize) ∨ (width < height ∧ ysize < xsize)
    then (height, width) else (width, height)
  let width := wh.1
  let height := wh.2
  if scale ≠ 0 then
    let width := xsize * scale
    let height := ysize * scale
    .ok (width, height, 0, (maxz - minz) * scale,
      facets.map (fun f => f.map (fun p =>
        ((p.1 - minx) * scale, (p.2.1 - miny) * scale, (p.2.2 - minz) * scale))))
  else
    if xsize = 0 ∨ ysize = 0 then .error "ZeroDivisionError: float division by zero"
    else
      let c1 := width / xsize
      let c2 := height / ysize
      let big := max c1 c2
      let small := min c1 c2
      let scale := if big * xsize ≤ width ∧ big * ysize ≤ height then big else small
      .ok (width, height, 0, (maxz - minz) * scale,
        facets.map (fun f => f.map (fun p =>
          ((p.1 - minx) * scale, (p.2.1 - miny) * scale, (p.2.2 - minz) * scale))))

/-- Three-way comparison of rationals. -/
def cmpQ (a b : ℚ) : Ordering :=
  if a < b then .lt else if a = b then .eq else .gt

/-- Lexicographic comparison of 3D points (Python tuple comparison). -/
def cmpP3 (p q : Point3) : Ordering :=
  (cmpQ p.1 q.1).then ((cmpQ p.2.1 q.2.1).then (cmpQ p.2.2 q.2.2))

/-- Lexicographic comparison of vertex lists (Python list comparison). -/
def cmpFacet : Facet → Facet → Ordering
  | [], [] => .eq
  | [], _ :: _ => .lt
  | _ :: _, [] => .gt
  | p :: ps, q :: qs => (cmpP3 p q).then (cmpFacet ps qs)

/-- The total order `sorted` uses on (maxz, minz, facet) tuples. -/
def facetLe (f g : IFacet) : Bool :=
  match (cmpQ f.1 g.1).then ((cmpQ f.2.1 g.2.1).then (cmpFacet f.2.2 g.2.2)) with
  | .gt => false
  | _ => true

/-- `z_sort_facets`: annotate each facet with its max and min vertex Z (of the
first three vertices) and sort ascending. -/
def z_sort_facets (facets : List Facet) : List IFacet :=
  (facets.map (fun f =>
      let d : Point3 := (0, 0, 0)
      (max (max (f.getD 0 d).2.2 (f.getD 1 d).2.2) (f.getD 2 d).2.2,
       min (min (f.getD 0 d).2.2 (f.getD 1 d).2.2) (f.getD 2 d).2.2,
       f))).insertionSort (fun a b => facetLe a b = true)

/-- The layer count the driver computes and passes to the writer:
`math.ceil(maxz - minz / thickness)`, exactly as written in the source
(the division binds tighter than the subtraction). -/
def writer_layers (maxz minz thickness : ℚ) : ℤ :=
  ⌈maxz - minz / thickness⌉

/-- The `while z <= maxz` layer loop of `command_line`: prune the sorted facet
list, slice, stitch, and record one (layer index, z, paths) call per layer.
The inner `while maxz_facets[i][0] < z` cursor advance raises `IndexError`
when every remaining facet is below the plane. -/
def driverLoop : ℕ → List IFacet → ℚ → ℚ → ℚ → ℕ →
    Except String (List (ℕ × ℚ × List Seg))
  | 0, _, _, _, _, _ => .error "fuel exhausted"
  | fuel + 1, facets, z, maxz, thickness, layer =>
    if z ≤ maxz then
      if facets.all (fun f => decide (f.1 < z)) then
        .error "IndexError: list index out of range"
      else
        match path_lines (slice_shape_at (facets.dropWhile (fun f => decide (f.1 < z))) z) with
        | .error e => .error e
        | .ok paths =>
          match driverLoop fuel (facets.dropWhile (fun f => decide (f.1 < z)))
              (z + thickness) maxz thickness (layer + 1) with
          | .error e => .error e
          | .ok rest => .ok ((layer, z, paths) :: rest)
    else .ok []

/-- Result of a `command_line` run: the resolved page size, the layer count
handed to the writer, the writer calls (layer index, height, paths), and the
value `command_line` returns (`paths_all` after `del paths_all[0]`). -/
structure RunResult where
  width : ℚ
  height : ℚ
  layersArg : ℤ
  calls : List (ℕ × ℚ × List Seg)
  ret : List (List Seg)
deriving DecidableEq

instance {ε α : Type} [DecidableEq ε] [DecidableEq α] : DecidableEq (Except ε α) := fun
  | .ok a, .ok b => decidable_of_iff (a = b) (by simp)
  | .error a, .error b => decidable_of_iff (a = b) (by simp)
  | .ok _, .error _ => .isFalse (by simp)
  | .error _, .ok _ => .isFalse (by simp)

/-- The computational core of `command_line` (file handling, logging and the
concrete writers stripped away; the facets stand for the result of `parse`).
`scale = 0` models an unset `--scale` option. -/
def command_line_core (facets : List Facet) (thickness width height scale : ℚ) :
    Except String RunResult :=
  match scale_to_fit facets (if scale ≠ 0 then 0 else width)
      (if scale ≠ 0 then 0 else height) scale with
  | .error e => .error e
  | .ok (w, h, minz, maxz, sfacets) =>
    match driverLoop (⌈(maxz - minz) / thickness⌉.toNat + 2) (z_sort_facets sfacets)
        minz maxz thickness 1 with
    | .error e => .error e
    | .ok calls =>
      match calls.map (fun c => c.2.2) with
      | [] => .error "IndexError: list assignment index out of range"
      | _ :: tail => .ok ⟨w, h, writer_layers maxz minz thickness, calls, tail⟩

/-- The 12-triangle cube mesh with vertices at all combinations of 0 and 10 on
each axis (two triangles per face, split along the v0-v2 diagonal). -/
def cubeFacets : List Facet :=
  [ [(0,0,0),(10,0,0),(10,10,0)], [(0,0,0),(10,10,0),(0,10,0)],
    [(0,0,10),(10,0,10),(10,10,10)], [(0,0,10),(10,10,10),(0,10,10)],
    [(0,0,0),(10,0,0),(10,0,10)], [(0,0,0),(10,0,10),(0,0,10)],
    [(10,10,0),(0,10,0),(0,10,10)], [(10,10,0),(0,10,10),(10,10,10)],
    [(0,10,0),(0,0,0),(0,0,10)], [(0,10,0),(0,0,10),(0,10,10)],
    [(10,0,0),(10,10,0),(10,10,10)], [(10,0,0),(10,10,10),(10,0,10)] ]

/-- The writer calls of a completed run (empty when the run raised). -/
def runCalls (r : Except String RunResult) : List (ℕ × ℚ × List Seg) :=
  match r with
  | .ok r => r.calls
  | .error _ => []

/-- The value `command_line` returned (empty when the run raised). -/
def runRet (r : Except String RunResult) : List (List Seg) :=
  match r with
  | .ok r => r.ret
  | .error _ => []

/-- The layer count handed to the writer (0 when the run raised). -/
def runLayersArg (r : Except String RunResult) : ℤ :=
  match r with
  | .ok r => r.layersArg
  | .error _ => 0

/-- The closed square path the cube run emits at Z = 0. -/
def cubeSquarePath : Seg := [(0,10),(0,0),(10,0),(10,10),(0,10)]

/-- The closed path the cube run emits at Z = 5 (corners and edge midpoints). -/
def cubeMidPath : Seg :=
  [(5,0),(0,0),(0,5),(0,10),(5,10),(10,10),(10,5),(10,0),(5,0)]

/-- A single triangle lying flat in the Z = 0 plane (zero Z extent). -/
def flatTri : List Facet := [[(0,0,0),(4,0,0),(0,3,0)]]

/-- A two-endpoint segment whose endpoint keys differ (the shape every
segment reaching `path_lines` has, by the slicer's filter). -/
def goodSeg (l : Seg) : Prop :=
  ∃ p q, l = [p, q] ∧ LineMap.key p ≠ LineMap.key q

/-- The keys of a segment's points. -/
def lineKeys (l : Seg) : List Key := l.map LineMap.key

/-- The bucket stored at a key (empty when the key is absent). -/
def bucket (m : LMap) (k : Key) : List Seg := (LineMap.find m k).getD []

/-- The LineMap representation invariant: for some multiset `S` of remaining
good segments, every key's bucket holds exactly the remaining segments having
that key as an endpoint key, keys are unique, and no stored bucket is empty. -/
def InvS (m : LMap) (S : List Seg) : Prop :=
  (∀ l ∈ S, goodSeg l) ∧
  (m.map Prod.fst).Nodup ∧
  (∀ e ∈ m, e.2 ≠ []) ∧
  ∀ k l, (bucket m k).count l = if k ∈ lineKeys l then S.count l else 0

/-- A two-segment open chain `A - B - C` fed to the stitcher in an order that
makes `take_line` seed a path from the middle vertex `B` outward to `C`. -/
def stitchCex : List Seg := [[(0,0),(1,0)], [(0,0),(2,0)]]

/-! The text-format mesh loader (src/JM_slicer/b_slice_stl.py).  A file is
modelled as the list of its already-stripped lines (`f.readline().strip()`
yields the next element, and the empty string once the stream is exhausted).
Splitting is on spaces, matching `str.split()` for space-separated lines. -/

/-- Accumulator-based tokenizer behind `words`. -/
def splitWordsAux : List Char → List Char → List String
  | [], acc => if acc = [] then [] else [String.mk acc.reverse]
  | c :: cs, acc =>
    if c = ' ' then
      (if acc = [] then splitWordsAux cs []
       else String.mk acc.reverse :: splitWordsAux cs [])
    else splitWordsAux cs (c :: acc)

/-- Python `line.split()`: whitespace-separated words, empties dropped. -/
def words (s : String) : List String := splitWordsAux s.data []

/-- Python `line.startswith(pre)`. -/
def pyStartsWith (pre s : String) : Bool := List.isPrefixOf pre.data s.data

/-- Python `' '.join(parts)`. -/
def joinWords : List String → String
  | [] => ""
  | [w] => w
  | w :: ws => w ++ " " ++ joinWords ws

/-- Decimal digit test. -/
def isDigit (c : Char) : Bool := ('0' ≤ c) && (c ≤ '9')

/-- Parse a nonempty all-digit character list. -/
def parseNatDigits (cs : List Char) : Option ℕ :=
  if cs = [] then none
  else if cs.all isDigit then
    some (cs.foldl (fun n c => 10 * n + (c.toNat - 48)) 0)
  else none

/-- Consume an optional leading sign; `true` means negative. -/
def parseSign : List Char → Bool × List Char
  | '+' :: cs => (false, cs)
  | '-' :: cs => (true, cs)
  | cs => (false, cs)

/-- Split at the first exponent marker `e`/`E`. -/
def splitAtExp : List Char → List Char × Option (List Char)
  | [] => ([], none)
  | c :: cs =>
    if c = 'e' ∨ c = 'E' then ([], some cs)
    else
      let r := splitAtExp cs
      (c :: r.1, r.2)

/-- Split at the first decimal point. -/
def splitAtDot : List Char → List Char × Option (List Char)
  | [] => ([], none)
  | c :: cs =>
    if c = '.' then ([], some cs)
    else
      let r := splitAtDot cs
      (c :: r.1, r.2)

/-- Parse an unsigned decimal mantissa `digits [. digits]` (either side of the
point may be empty, but not both). -/
def parseMant (cs : List Char) : Option ℚ :=
  let ip := (splitAtDot cs).1
  match (splitAtDot cs).2 with
  | none => (parseNatDigits ip).map (fun n => (n : ℚ))
  | some fp =>
    if ip = [] ∧ fp = [] then none
    else if ip.all isDigit ∧ fp.all isDigit then
      some ((ip.foldl (fun n c => 10 * n + (c.toNat - 48)) 0 : ℕ) +
        (fp.foldl (fun n c => 10 * n + (c.toNat - 48)) 0 : ℕ) / (10 : ℚ) ^ fp.length)
    else none

/-- Python `float(s)` on the finite decimal grammar
`[sign] (digits [. digits] | . digits) [(e|E) [sign] digits]`
(`inf`/`nan` spellings are out of scope for mesh files). -/
def parseFloat (s : String) : Option ℚ :=
  let s1 := parseSign s.data
  let s2 := splitAtExp s1.2
  match parseMant s2.1 with
  | none => none
  | some m =>
    let signed := if s1.1 then -m else m
    match s2.2 with
    | none => some signed
    | some ecs =>
      let es := parseSign ecs
      match parseNatDigits es.2 with
      | none => none
      | some e => some (if es.1 then signed / (10 : ℚ) ^ e else signed * (10 : ℚ) ^ e)

/-- Parse every word as a float (Python `[float(num) for num in parts[1:]]`). -/
def parseFloats : List String → Option (List ℚ)
  | [] => some []
  | w :: ws =>
    match parseFloat w with
    | none => none
    | some v =>
      match parseFloats ws with
      | none => none
      | some vs => some (v :: vs)

/-- The vertex-line loop of `readFacet`: read `vertex ...` lines until
`endloop`.  Error strings mirror the Python exceptions. -/
def readVertices : List String → Except String (List (List ℚ) × List String)
  | [] => .error "IndexError: list index out of range"
  | l :: ls =>
    if l = "endloop" then .ok ([], ls)
    else
      match words l with
      | [] => .error "IndexError: list index out of range"
      | p :: nums =>
        if p = "vertex" then
          match parseFloats nums with
          | none => .error "ValueError: could not convert string to float"
          | some v =>
            match readVertices ls with
            | .error e => .error e
            | .ok (vs, ls2) => .ok (v :: vs, ls2)
        else .error ("ValueError: Expected vertex x y z, got " ++ l)

/-- `readFacet`: `outer loop`, vertex lines, `endloop` (consumed by
`readVertices`), `endfacet`. -/
def readFacet : List String → Except String (List (List ℚ) × List String)
  | [] => .error "ValueError: Expected outer loop, got "
  | l :: rest =>
    if l = "outer loop" then
      match readVertices rest with
      | .error e => .error e
      | .ok (vs, ls2) =>
        match ls2 with
        | [] => .error "ValueError: Expected endfacet, got "
        | l2 :: rest2 =>
          if l2 = "endfacet" then .ok (vs, rest2)
          else .error ("ValueError: Expected endfacet, got " ++ l2)
    else .error ("ValueError: Expected outer loop, got " ++ l)

/-- The facet-block loop of `parseText`: read blocks while the next line
starts with `facet`; also returns the first non-facet line and the remainder.
The fuel argument only bounds recursion; `parseText` supplies enough. -/
def readFacets : ℕ → List String → Except String (List (List (List ℚ)) × String × List String)
  | 0, _ => .error "fuel exhausted"
  | fuel + 1, ls =>
    match ls with
    | [] => .ok ([], "", [])
    | line :: rest =>
      if pyStartsWith "facet" line then
        match readFacet rest with
        | .error e => .error e
        | .ok (v, ls2) =>
          match readFacets fuel ls2 with
          | .error e => .error e
          | .ok (fs, last, ls3) => .ok (v :: fs, last, ls3)
      else .ok ([], line, rest)

/-- `parseText`: header `solid <name>`, facet blocks, trailer
`endsolid <name>`; lines after the trailer are never read. -/
def parseText (ls : List String) : Except String (List (List (List ℚ))) :=
  match ls with
  | [] => .error "IndexError: list index out of range"
  | line :: rest =>
    match words line with
    | [] => .error "IndexError: list index out of range"
    | p :: ws =>
      if p = "solid" then
        match readFacets (rest.length + 1) rest with
        | .error e => .error e
        | .ok (fs, last, _) =>
          if last = "endsolid " ++ joinWords ws then .ok fs
          else .error ("ValueError: Expected endsolid " ++ joinWords ws ++ ", got "
            ++ last ++ ". Check .stl file.")
      else .error ("ValueError: Expected solid ..., got " ++ line)

/-- States of the acceptance automata used to characterize which line lists
the text loader accepts. -/
inductive PSt where
  | expectHeader : PSt
  | expectBlock : String → PSt
  | expectOuter : String → PSt
  | inVerts : String → ℕ → PSt
  | expectEndfacet : String → PSt
  | accepted : PSt
  | rejected : PSt
deriving DecidableEq

/-- One line of the relaxed grammar automaton: exactly the language
`parseText` accepts (any number of vertex lines and coordinates per block,
any `facet`-prefixed block opener, input after the trailer ignored). -/
def stepRelaxed : PSt → String → PSt
  | .expectHeader, l =>
    match words l with
    | "solid" :: rest => .expectBlock (joinWords rest)
    | _ => .rejected
  | .expectBlock name, l =>
    if l = "endsolid " ++ name then .accepted
    else if pyStartsWith "facet" l then .expectOuter name
    else .rejected
  | .expectOuter name, l => if l = "outer loop" then .inVerts name 0 else .rejected
  | .inVerts name k, l =>
    if l = "endloop" then .expectEndfacet name
    else
      match words l with
      | "vertex" :: nums =>
        if (parseFloats nums).isSome then .inVerts name (k + 1) else .rejected
      | _ => .rejected
  | .expectEndfacet name, l => if l = "endfacet" then .expectBlock name else .rejected
  | .accepted, _ => .accepted
  | .rejected, _ => .rejected

/-- One line of the claimed (strict) grammar automaton: exactly three
`vertex x y z` lines (three coordinates each) per block and nothing after the
trailer. -/
def stepStrict : PSt → String → PSt
  | .expectHeader, l =>
    match words l with
    | "solid" :: rest => .expectBlock (joinWords rest)
    | _ => .rejected
  | .expectBlock name, l =>
    if l = "endsolid " ++ name then .accepted
    else if pyStartsWith "facet" l then .expectOuter name
    else .rejected
  | .expectOuter name, l => if l = "outer loop" then .inVerts name 0 else .rejected
  | .inVerts name k, l =>
    if l = "endloop" then (if k = 3 then .expectEndfacet name else .rejected)
    else
      match words l with
      | "vertex" :: nums =>
        if nums.length = 3 ∧ (parseFloats nums).isSome then .inVerts name (k + 1)
        else .rejected
      | _ => .rejected
  | .expectEndfacet name, l => if l = "endfacet" then .expectBlock name else .rejected
  | .accepted, _ => .rejected
  | .rejected, _ => .rejected

/-- Run the relaxed automaton from a state. -/
def runRelaxed (s : PSt) (ls : List String) : PSt := ls.foldl stepRelaxed s

/-- Run the strict automaton from a state. -/
def runStrict (s : PSt) (ls : List String) : PSt := ls.foldl stepStrict s

/-- Acceptance by the relaxed grammar. -/
def relaxedAccepts (ls : List String) : Bool :=
  decide (runRelaxed .expectHeader ls = .accepted)

/-- Acceptance by the claimed three-vertex grammar (modelled from the claim). -/
def strictAccepts (ls : List String) : Bool :=
  decide (runStrict .expectHeader ls = .accepted)

/-- A text mesh whose single facet block has four vertex lines: it deviates
from the claimed grammar yet parses successfully. -/
def fourVertexMesh : List String :=
  ["solid s", "facet normal", "outer loop", "vertex 0 0 0", "vertex 1 0 0",
   "vertex 0 1 0", "vertex 1 1 0", "endloop", "endfacet", "endsolid s"]

/-- A conforming one-facet text mesh. -/
def goodMesh : List String :=
  ["solid cube", "facet normal 0 0 1", "outer loop", "vertex 0 0 0",
   "vertex 1 0 0", "vertex 0 1 0", "endloop", "endfacet", "endsolid cube"]

/-- C1 counterexample: slicing the 12-triangle cube with thickness 5 from Z=0
(scale-to-fit with uniform scale 1, no swap) runs three layer iterations, at
heights 0, 5 and 10 (the loop bound is `z <= maxZ`), not the two layers the
claim states; moreover the layer at Z = 5 is a nine-point path through the
corners and the edge midpoints, not a four-point square. -/
theorem C1_cube_two_layers_false :
    (runCalls (command_line_core cubeFacets 5 0 0 1)).map (fun c => c.2.1) = [0, 5, 10] ∧
    ((runCalls (command_line_core cubeFacets 5 0 0 1)).map (fun c => c.2.1)).length ≠ 2 ∧
    (runCalls (command_line_core cubeFacets 5 0 0 1)).map (fun c => c.2.2) =
      [[cubeSquarePath], [cubeMidPath], []] ∧
    cubeMidPath.length ≠ 4 := by
  with_unfolding_all decide

/-- C1 amended: the cube pipeline performs three layer iterations at heights
0, 5 and 10; at Z = 0 it emits a single closed path through exactly the four
square corners (0,0), (10,0), (10,10), (0,10); at Z = 5 a single closed path
through the corners and edge midpoints; at Z = 10 no path; and the returned
list (after `del paths_all[0]`) holds only the last two layers. -/
theorem C1_cube_pipeline :
    command_line_core cubeFacets 5 0 0 1 =
      .ok ⟨10, 10, 10,
        [(1, 0, [cubeSquarePath]), (2, 5, [cubeMidPath]), (3, 10, [])],
        [[cubeMidPath], []]⟩ ∧
    cubeSquarePath.head? = cubeSquarePath.getLast? ∧
    cubeSquarePath.dedup.toFinset = ({(0,0), (10,0), (10,10), (0,10)} : Finset Point2) ∧
    cubeMidPath.head? = cubeMidPath.getLast? := by
  refine ⟨by with_unfolding_all decide, by with_unfolding_all decide,
    by with_unfolding_all decide, by with_unfolding_all decide⟩

/-- Helper: the two filters of `tri_above_below` split the vertex list. -/
theorem tri_above_below_length (tri : Facet) (z : ℚ) :
    (tri_above_below tri z).1.length + (tri_above_below tri z).2.length = tri.length := by
  induction tri with
  | nil => simp [tri_above_below]
  | cons p tri ih =>
    simp only [tri_above_below, List.filter_cons] at ih ⊢
    rcases lt_or_le z p.2.2 with h | h
    · simp [h, not_le.mpr h]
      omega
    · simp [h, not_lt.mpr h]
      omega

/-- Helper: members of a slice output arise from `sliceFacet`. -/
theorem slice_shape_at_mem {facets : List IFacet} {z : ℚ} {l : Seg}
    (h : l ∈ slice_shape_at facets z) : ∃ f ∈ facets, sliceFacet f z = some l := by
  simpa [slice_shape_at, List.mem_filterMap] using h

/-- Helper: a general length formula for the candidate enumeration. -/
theorem flatMap_map_length {α β γ : Type} (A : List α) (B : List β) (g : α → β → γ) :
    (A.flatMap (fun a => B.map (g a))).length = A.length * B.length := by
  induction A with
  | nil => simp
  | cons a A ih => simp [ih, Nat.succ_mul, Nat.add_comm]

/-- Helper: the shape of a successful `sliceFacet`. -/
theorem sliceFacet_eq_some {f : IFacet} {z : ℚ} {l : Seg}
    (h : sliceFacet f z = some l) :
    l = crossing_line f.2.2 z ∧
    ∃ p q rest, l = p :: q :: rest ∧ LineMap.key p ≠ LineMap.key q := by
  by_cases h1 : z < f.2.1
  · simp [sliceFacet, h1] at h
  · by_cases h2 : (tri_above_below f.2.2 z).1 = [] ∨ (tri_above_below f.2.2 z).2 = []
    · simp [sliceFacet, h1, h2] at h
    · rcases hcl : crossing_line f.2.2 z with _ | ⟨p, _ | ⟨q, rest⟩⟩
      · simp [sliceFacet, h1, h2, hcl] at h
      · simp [sliceFacet, h1, h2, hcl] at h
      · by_cases hkey : LineMap.key p = LineMap.key q
        · simp [sliceFacet, h1, h2, hcl, hkey] at h
        · have h' : sliceFacet f z = some (p :: q :: rest) := by
            simp [sliceFacet, h1, h2, hcl, hkey]
          rw [h] at h'
          have hl : l = p :: q :: rest := by
            injection h'
          exact ⟨hl, p, q, rest, hl, hkey⟩

/-- C2: the layer count the driver passes to the writer is
`math.ceil(maxz - minz / thickness)` (the division binds tighter than the
subtraction), not `ceil((maxZ - minZ) / thickness)`.  Since `scale_to_fit`
always returns `minZ = 0`, the computed count is `ceil(maxZ)` independent of
the thickness: for the scaled cube (maxZ = 10, minZ = 0, thickness = 5) the
writer receives 10 layers where the claim requires 2. -/
theorem C2_writer_layers_bug :
    writer_layers 10 0 5 = 10 ∧
    (⌈((10:ℚ) - 0) / 5⌉ = 2) ∧
    runLayersArg (command_line_core cubeFacets 5 0 0 1) = 10 ∧
    (∀ maxz t : ℚ, writer_layers maxz 0 t = ⌈maxz⌉) := by
  refine ⟨by norm_num [writer_layers], by norm_num, by with_unfolding_all decide, ?_⟩
  intro maxz t
  simp [writer_layers]

/-- C3: for a facet list sorted ascending by maximum vertex Z whose max-Z
annotations bound the vertices, dropping the leading facets with `maxZ < z`
leaves the segment list of `slice_shape_at` at height `z` unchanged, and each
dropped facet contributes no segment at `z` or at any height `zp >= z`. -/
theorem C3_prune_sound (facets : List IFacet) (z zp : ℚ)
    (hwf : ∀ f ∈ facets, ∀ p ∈ f.2.2, p.2.2 ≤ f.1)
    (hsorted : facets.Pairwise (fun f g => f.1 ≤ g.1))
    (hz : z ≤ zp) :
    slice_shape_at (facets.dropWhile (fun f => decide (f.1 < z))) z =
      slice_shape_at facets z ∧
    ∀ f ∈ facets.takeWhile (fun f => decide (f.1 < z)), sliceFacet f zp = none := by
  have hdropped : ∀ f ∈ facets.takeWhile (fun f => decide (f.1 < z)),
      ∀ w, z ≤ w → sliceFacet f w = none := by
    intro f hf w hw
    have hmem : f ∈ facets := List.takeWhile_subset _ hf
    have hlt : f.1 < z := by
      have := List.mem_takeWhile_imp hf
      simpa using this
    have habove : (tri_above_below f.2.2 w).1 = [] := by
      simp only [tri_above_below, List.filter_eq_nil_iff]
      intro p hp
      have : p.2.2 ≤ f.1 := hwf f hmem p hp
      simp only [decide_eq_true_eq, not_lt]
      exact this.trans (hlt.le.trans hw)
    unfold sliceFacet
    split
    · rfl
    · simp [habove]
  refine ⟨?_, fun f hf => hdropped f hf zp hz⟩
  conv_rhs => rw [← List.takeWhile_append_dropWhile
    (fun f => decide (f.1 < z)) facets]
  simp only [slice_shape_at, List.filterMap_append]
  have : List.filterMap (fun f => sliceFacet f z)
      (facets.takeWhile (fun f => decide (f.1 < z))) = [] := by
    rw [List.filterMap_eq_nil_iff]
    intro f hf
    simp [hdropped f hf z le_rfl]
  rw [this, List.nil_append]

/-- C3 witness: a concrete sorted two-facet list at z = zp = 5 where the first
facet is pruned. -/
theorem C3_prune_sound_witness :
    slice_shape_at
        (([(0, 0, [(0,0,0),(1,0,0),(0,1,0)]),
           (10, 0, [(0,0,0),(1,0,0),(0,0,10)])] : List IFacet).dropWhile
          (fun f => decide (f.1 < 5))) 5 =
      slice_shape_at
        ([(0, 0, [(0,0,0),(1,0,0),(0,1,0)]),
          (10, 0, [(0,0,0),(1,0,0),(0,0,10)])] : List IFacet) 5 ∧
    ∀ f ∈ (([(0, 0, [(0,0,0),(1,0,0),(0,1,0)]),
             (10, 0, [(0,0,0),(1,0,0),(0,0,10)])] : List IFacet).takeWhile
            (fun f => decide (f.1 < 5))), sliceFacet f 5 = none :=
  C3_prune_sound
    [(0, 0, [(0,0,0),(1,0,0),(0,1,0)]), (10, 0, [(0,0,0),(1,0,0),(0,0,10)])]
    5 5 (by with_unfolding_all decide) (by with_unfolding_all decide) le_rfl

/-- C4: for a triangle facet whose min-Z annotation bounds its vertices and
which straddles the plane (some vertex strictly above, some at or below), the
candidate intersection list has exactly two points, one per (above, below)
pair, each given by the interpolation
`((z - bz) * (ax - bx) / (az - bz) + bx, (z - bz) * (ay - by) / (az - bz) + by)`,
and any segment the facet contributes to `slice_shape_at` is exactly that one
two-point segment. -/
theorem C4_crossing_points (f : IFacet) (z : ℚ)
    (htri : f.2.2.length = 3)
    (hmin : ∀ p ∈ f.2.2, f.2.1 ≤ p.2.2)
    (ha : (tri_above_below f.2.2 z).1 ≠ [])
    (hb : (tri_above_below f.2.2 z).2 ≠ []) :
    (crossing_line f.2.2 z).length = 2 ∧
    crossing_line f.2.2 z =
      (tri_above_below f.2.2 z).1.flatMap (fun a =>
        (tri_above_below f.2.2 z).2.map (fun b =>
          ((z - b.2.2) * (a.1 - b.1) / (a.2.2 - b.2.2) + b.1,
           (z - b.2.2) * (a.2.1 - b.2.1) / (a.2.2 - b.2.2) + b.2.1))) ∧
    ∀ s ∈ slice_shape_at [f] z, s = crossing_line f.2.2 z := by
  have hsplit := tri_above_below_length f.2.2 z
  refine ⟨?_, ?_, ?_⟩
  · have hlen : (crossing_line f.2.2 z).length =
        (tri_above_below f.2.2 z).1.length * (tri_above_below f.2.2 z).2.length := by
      simp only [crossing_line]
      exact flatMap_map_length _ _ _
    rw [hlen, htri] at *
    have hA : 1 ≤ (tri_above_below f.2.2 z).1.length :=
      List.length_pos.mpr ha
    have hB : 1 ≤ (tri_above_below f.2.2 z).2.length :=
      List.length_pos.mpr hb
    have hcases : (tri_above_below f.2.2 z).1.length = 1 ∧
        (tri_above_below f.2.2 z).2.length = 2 ∨
        (tri_above_below f.2.2 z).1.length = 2 ∧
        (tri_above_below f.2.2 z).2.length = 1 := by omega
    rcases hcases with ⟨h1, h2⟩ | ⟨h1, h2⟩ <;> rw [h1, h2]
  · apply List.flatMap_congr
    intro a _
    apply List.map_congr_left
    intro b _
    simp [find_line_plane_intersection, mul_div_assoc]
  · intro s hs
    obtain ⟨g, hg, hgs⟩ := slice_shape_at_mem hs
    rcases List.mem_singleton.mp hg with rfl
    exact (sliceFacet_eq_some hgs).1.symm ▸ rfl

/-- C4 witness: a concrete side triangle of the cube at z = 5. -/
theorem C4_crossing_points_witness :
    (crossing_line [(0,0,0),(10,0,0),(10,0,10)] 5).length = 2 ∧
    crossing_line [(0,0,0),(10,0,0),(10,0,10)] 5 =
      (tri_above_below [(0,0,0),(10,0,0),(10,0,10)] 5).1.flatMap (fun a =>
        (tri_above_below [(0,0,0),(10,0,0),(10,0,10)] 5).2.map (fun b =>
          ((5 - b.2.2) * (a.1 - b.1) / (a.2.2 - b.2.2) + b.1,
           (5 - b.2.2) * (a.2.1 - b.2.1) / (a.2.2 - b.2.2) + b.2.1))) ∧
    ∀ s ∈ slice_shape_at [((10 : ℚ), (0 : ℚ), [(0,0,0),(10,0,0),(10,0,10)])] 5,
      s = crossing_line [(0,0,0),(10,0,0),(10,0,10)] 5 :=
  C4_crossing_points ((10 : ℚ), (0 : ℚ), [(0,0,0),(10,0,0),(10,0,10)]) 5
    (by with_unfolding_all decide) (by with_unfolding_all decide)
    (by with_unfolding_all decide) (by with_unfolding_all decide)

/-- C5: every segment `slice_shape_at` returns is a two-point line whose
endpoint keys under `LineMap.key` (the same keying function the Path Stitcher
uses for endpoint matching) differ; equal-key crossings were discarded by the
filter before the segment list is handed to `path_lines`. -/
theorem C5_distinct_endpoint_keys (facets : List IFacet) (z : ℚ) (l : Seg)
    (hmem : l ∈ slice_shape_at facets z) :
    ∃ p q rest, l = p :: q :: rest ∧ LineMap.key p ≠ LineMap.key q := by
  obtain ⟨f, _, hf⟩ := slice_shape_at_mem hmem
  exact (sliceFacet_eq_some hf).2

/-- C5 witness: the bottom-edge segment of a cube side facet at z = 5. -/
theorem C5_distinct_endpoint_keys_witness :
    ∃ p q rest, ([((5 : ℚ), (0 : ℚ)), (10, 0)] : Seg) = p :: q :: rest ∧
      LineMap.key p ≠ LineMap.key q :=
  C5_distinct_endpoint_keys [((10 : ℚ), (0 : ℚ), [(0,0,0),(10,0,0),(10,0,10)])] 5
    [(5, 0), (10, 0)] (by with_unfolding_all decide)

/-- C8 counterexample: a mesh with zero Z extent does not make `scale_to_fit`
fail: the explicit-uniform-scale mode succeeds (it performs no division at
all), and so does the width/height mode as long as the X and Y extents are
nonzero.  This refutes the claim that a zero-extent bounding box on any axis
fails in every call mode. -/
theorem C8_zero_extent_not_always_error :
    zsizeOf flatTri = 0 ∧
    (scale_to_fit flatTri 0 0 1).isOk = true ∧
    (scale_to_fit flatTri 8 6 0).isOk = true := by
  refine ⟨by with_unfolding_all decide, by with_unfolding_all decide,
    by with_unfolding_all decide⟩

/-- C8 amended: in the width/height mode (`scale` falsy) a zero X or Y extent
raises `ZeroDivisionError` from the scale computation `width / xsize` or
`height / ysize`; the explicit-uniform-scale mode never divides and always
succeeds; and when `scale` is falsy but both X and Y extents are nonzero the
transform succeeds (a zero Z extent alone never raises). -/
theorem C8_zero_extent_behaviour (facets : List Facet) (w h s : ℚ) :
    (s ≠ 0 → ∃ r, scale_to_fit facets w h s = .ok r) ∧
    (s = 0 → (xsizeOf facets = 0 ∨ ysizeOf facets = 0) →
      scale_to_fit facets w h s = .error "ZeroDivisionError: float division by zero") ∧
    (s = 0 → xsizeOf facets ≠ 0 → ysizeOf facets ≠ 0 →
      ∃ r, scale_to_fit facets w h s = .ok r) := by
  refine ⟨?_, ?_, ?_⟩
  · intro hs
    simp only [scale_to_fit, if_pos hs]
    exact ⟨_, rfl⟩
  · intro hs hxy
    subst hs
    simp only [xsizeOf, ysizeOf] at hxy
    simp only [scale_to_fit, ne_eq, not_true_eq_false, if_false]
    rw [if_pos hxy]
  · intro hs hx hy
    subst hs
    simp only [xsizeOf, ysizeOf] at hx hy
    simp only [scale_to_fit, ne_eq, not_true_eq_false, if_false]
    rw [if_neg (by push_neg; exact ⟨hx, hy⟩)]
    exact ⟨_, rfl⟩

/-- C8 witness: concrete instantiations of all three branches of the amended
statement. -/
theorem C8_zero_extent_behaviour_witness :
    (∃ r, scale_to_fit flatTri 0 0 1 = .ok r) ∧
    scale_to_fit [[(0,0,0),(0,1,0),(0,0,1)]] 8 6 0 =
      .error "ZeroDivisionError: float division by zero" ∧
    (∃ r, scale_to_fit flatTri 8 6 0 = .ok r) :=
  ⟨(C8_zero_extent_behaviour flatTri 0 0 1).1 (by norm_num),
   (C8_zero_extent_behaviour [[(0,0,0),(0,1,0),(0,0,1)]] 8 6 0).2.1 rfl
     (by left; with_unfolding_all decide),
   (C8_zero_extent_behaviour flatTri 8 6 0).2.2 rfl
     (by with_unfolding_all decide) (by with_unfolding_all decide)⟩

/-- Helper: indices recorded by the driver loop are consecutive from the
starting layer. -/
theorem driverLoop_indices : ∀ (fuel : ℕ) (facets : List IFacet) (z maxz t : ℚ)
    (layer : ℕ) (calls : List (ℕ × ℚ × List Seg)),
    driverLoop fuel facets z maxz t layer = .ok calls →
    calls.map (fun c => c.1) = List.range' layer calls.length := by
  intro fuel
  induction fuel with
  | zero => intro _ _ _ _ _ _ h; exact absurd h (by simp [driverLoop])
  | succ fuel ih =>
    intro facets z maxz t layer calls h
    unfold driverLoop at h
    split at h
    · split at h
      · exact absurd h (by simp)
      · split at h
        · exact absurd h (by simp)
        · split at h
          · exact absurd h (by simp)
          · rename_i paths _ rest hrest
            simp only [Except.ok.injEq] at h
            subst h
            simpa [List.range'] using ih _ _ _ _ _ _ hrest
    · simp only [Except.ok.injEq] at h
      subst h
      simp

/-- C9: every completed `command_line` run invokes the writer once per layer
with consecutive 1-based indices, and the returned list is the per-layer path
list with its first element deleted (`del paths_all[0]`), i.e. the paths of
layers 2..n only. -/
theorem C9_writer_calls_vs_return (facets : List Facet) (t w h s : ℚ)
    (r : RunResult) (hok : command_line_core facets t w h s = .ok r) :
    r.calls ≠ [] ∧
    r.calls.map (fun c => c.1) = List.range' 1 r.calls.length ∧
    r.ret = (r.calls.map (fun c => c.2.2)).tail := by
  unfold command_line_core at hok
  split at hok
  · exact absurd hok (by simp)
  · rename_i w' h' minz maxz sfacets heq
    split at hok
    · exact absurd hok (by simp)
    · rename_i calls hcalls
      split at hok
      · exact absurd hok (by simp)
      · rename_i head tail hmap
        simp only [Except.ok.injEq] at hok
        subst hok
        refine ⟨?_, driverLoop_indices _ _ _ _ _ _ _ hcalls, ?_⟩
        · intro hnil
          simp only at hnil
          rw [hnil] at hmap
          exact absurd hmap (by simp)
        · simp [hmap]

namespace LineMap

theorem find_eq_bucket {m : LMap} {k : Key} {b : List Seg}
    (h : find m k = some b) : bucket m k = b := by
  simp [bucket, h]

theorem bucket_eq_nil_of_find_none {m : LMap} {k : Key}
    (h : find m k = none) : bucket m k = [] := by
  simp [bucket, h]

theorem find_isSome_of_bucket_ne {m : LMap} {k : Key}
    (h : bucket m k ≠ []) : ∃ b, find m k = some b ∧ bucket m k = b := by
  rcases hf : find m k with _ | b
  · exact absurd (bucket_eq_nil_of_find_none hf) h
  · exact ⟨b, rfl, find_eq_bucket hf⟩

theorem bucket_nil (k : Key) : bucket ([] : LMap) k = [] := rfl

theorem bucket_cons (k1 : Key) (b1 : List Seg) (m : LMap) (k : Key) :
    bucket ((k1, b1) :: m) k = if k1 = k then b1 else bucket m k := by
  by_cases h : k1 = k <;> simp [bucket, find, List.find?_cons, h]

theorem bucket_eraseKey (m : LMap) (k k' : Key) :
    bucket (eraseKey m k) k' = if k' = k then [] else bucket m k' := by
  induction m with
  | nil => by_cases h : k' = k <;> simp [eraseKey, bucket_nil, h]
  | cons e m ih =>
    obtain ⟨k1, b1⟩ := e
    by_cases h1 : k1 = k
    · subst h1
      by_cases h2 : k' = k1
      · simpa [eraseKey, h2] using ih
      · simp only [eraseKey, List.filter_cons] at ih ⊢
        simpa [bucket_cons, h2, Ne.symm h2] using ih
    · simp only [eraseKey, List.filter_cons] at ih ⊢
      by_cases h2 : k1 = k'
      · simp [← h2, h1, bucket_cons, if_neg h1]
      · simpa [h1, bucket_cons, h2] using ih

theorem bucket_setBucket_ne (m : LMap) (k : Key) (b : List Seg) {k' : Key}
    (hne : k' ≠ k) : bucket (setBucket m k b) k' = bucket m k' := by
  induction m with
  | nil => simp [setBucket]
  | cons e m ih =>
    obtain ⟨k1, b1⟩ := e
    by_cases h1 : k1 = k
    · subst h1
      simp only [setBucket, List.map_cons, if_pos rfl] at ih ⊢
      simpa [bucket_cons, Ne.symm hne] using ih
    · simp only [setBucket, List.map_cons, if_neg h1] at ih ⊢
      by_cases h2 : k1 = k'
      · simp [bucket_cons, h2]
      · simpa [bucket_cons, h2] using ih

theorem bucket_setBucket_self (m : LMap) (k : Key) (b : List Seg)
    (hmem : k ∈ m.map Prod.fst) : bucket (setBucket m k b) k = b := by
  induction m with
  | nil => simp at hmem
  | cons e m ih =>
    obtain ⟨k1, b1⟩ := e
    by_cases h1 : k1 = k
    · subst h1
      simp [setBucket, bucket_cons]
    · simp only [List.map_cons, List.mem_cons] at hmem
      rcases hmem with h | h
      · exact absurd h.symm h1
      · simp only [setBucket, List.map_cons, if_neg h1] at ih ⊢
        simpa [bucket_cons, h1] using ih h

theorem keys_setBucket (m : LMap) (k : Key) (b : List Seg) :
    (setBucket m k b).map Prod.fst = m.map Prod.fst := by
  induction m with
  | nil => rfl
  | cons e m ih =>
    obtain ⟨k1, b1⟩ := e
    by_cases h1 : k1 = k <;> simp only [setBucket, List.map_cons, h1] at ih ⊢ <;>
      simp_all

theorem keys_eraseKey_sublist (m : LMap) (k : Key) :
    ((eraseKey m k).map Prod.fst).Sublist (m.map Prod.fst) :=
  List.Sublist.map Prod.fst (List.filter_sublist m)

theorem mem_setBucket {m : LMap} {k : Key} {b : List Seg} {e : Key × List Seg}
    (h : e ∈ setBucket m k b) : e = (k, b) ∨ e ∈ m := by
  simp only [setBucket, List.mem_map] at h
  obtain ⟨e0, he0, heq⟩ := h
  by_cases h1 : e0.1 = k
  · left
    rw [← heq]
    simp [h1]
  · right
    rw [← heq]
    simpa [h1] using he0

theorem mem_eraseKey {m : LMap} {k : Key} {e : Key × List Seg}
    (h : e ∈ eraseKey m k) : e ∈ m :=
  List.mem_of_mem_filter h

theorem size_cons (e : Key × List Seg) (m : LMap) :
    size (e :: m) = e.2.length + size m := by
  simp [size]

theorem size_eraseKey_add (m : LMap) (k : Key) {b : List Seg}
    (hnd : (m.map Prod.fst).Nodup) (hfind : find m k = some b) :
    size (eraseKey m k) + b.length = size m := by
  induction m with
  | nil => simp [find] at hfind
  | cons e m ih =>
    obtain ⟨k1, b1⟩ := e
    simp only [List.map_cons, List.nodup_cons] at hnd
    by_cases h1 : k1 = k
    · subst h1
      have hfind0 : find ((k1, b1) :: m) k1 = some b1 := by
        simp [find]
      rw [hfind0] at hfind
      have hfind : b1 = b := by injection hfind
      have hrest : eraseKey ((k1, b1) :: m) k1 = m := by
        simp only [eraseKey, List.filter_cons, decide_not]
        rw [if_neg (by simp)]
        apply List.filter_eq_self.mpr
        intro e he
        have hne : e.1 ≠ k1 := fun hh => hnd.1 (hh ▸ List.mem_map_of_mem Prod.fst he)
        simpa using hne
      rw [hrest, ← hfind]
      simp [size_cons, Nat.add_comm]
    · have hfind2 : find m k = some b := by
        simpa [find, List.find?_cons, h1] using hfind
      have : eraseKey ((k1, b1) :: m) k = (k1, b1) :: eraseKey m k := by
        simp [eraseKey, List.filter_cons, h1]
      rw [this, size_cons, size_cons, Nat.add_assoc, ih hnd.2 hfind2]

theorem size_setBucket_add (m : LMap) (k : Key) (b : List Seg) {b0 : List Seg}
    (hnd : (m.map Prod.fst).Nodup) (hfind : find m k = some b0) :
    size (setBucket m k b) + b0.length = size m + b.length := by
  induction m with
  | nil => simp [find] at hfind
  | cons e m ih =>
    obtain ⟨k1, b1⟩ := e
    simp only [List.map_cons, List.nodup_cons] at hnd
    by_cases h1 : k1 = k
    · subst h1
      have hfind0 : find ((k1, b1) :: m) k1 = some b1 := by
        simp [find]
      rw [hfind0] at hfind
      have hfind : b1 = b0 := by injection hfind
      have hrest : setBucket ((k1, b1) :: m) k1 b = (k1, b) :: m := by
        simp only [setBucket, List.map_cons, if_pos rfl, List.cons.injEq, true_and]
        have hid : ∀ e ∈ m, (if e.1 = k1 then (k1, b) else e) = e := by
          intro e he
          have hne : e.1 ≠ k1 := fun hh => hnd.1 (hh ▸ List.mem_map_of_mem Prod.fst he)
          rw [if_neg hne]
        refine ⟨by simp, ?_⟩
        rw [List.map_congr_left hid]
        exact List.map_id m
      rw [hrest, ← hfind]
      simp [size_cons]
      omega
    · have hfind2 : find m k = some b0 := by
        simpa [find, List.find?_cons, h1] using hfind
      have : setBucket ((k1, b1) :: m) k b = (k1, b1) :: setBucket m k b := by
        simp [setBucket, h1]
      rw [this, size_cons, size_cons]
      have := ih hnd.2 hfind2
      omega

theorem popLast_eq_some {b : List Seg} {l : Seg} {b2 : List Seg}
    (h : popLast b = some (l, b2)) : b = b2 ++ [l] := by
  have hb : b ≠ [] := by
    rintro rfl
    simp [popLast] at h
  rw [popLast, List.getLast?_eq_getLast b hb] at h
  simp only [Option.some.injEq, Prod.mk.injEq] at h
  rw [← h.1, ← h.2]
  exact (List.dropLast_append_getLast hb).symm

theorem find_mem {m : LMap} {k : Key} {b : List Seg}
    (h : find m k = some b) : (k, b) ∈ m := by
  unfold find at h
  rcases hf : m.find? (fun e => decide (e.1 = k)) with _ | e
  · rw [hf] at h
    simp at h
  · rw [hf] at h
    simp only [Option.map, Option.some.injEq] at h
    have h1 := List.find?_some hf
    have h2 := List.mem_of_find?_eq_some hf
    simp only [decide_eq_true_eq] at h1
    have : e = (k, b) := by
      obtain ⟨e1, e2⟩ := e
      simp only at h1 h
      rw [h1, h]
    exact this ▸ h2

theorem find_mem_keys {m : LMap} {k : Key} {b : List Seg}
    (h : find m k = some b) : k ∈ m.map Prod.fst :=
  List.mem_map_of_mem Prod.fst (find_mem h)

theorem eraseKey_cons_self {m : LMap} {k : Key} {b : List Seg}
    (hnk : k ∉ m.map Prod.fst) : eraseKey ((k, b) :: m) k = m := by
  simp only [eraseKey, List.filter_cons, decide_not]
  rw [if_neg (by simp)]
  apply List.filter_eq_self.mpr
  intro e he
  have hne : e.1 ≠ k := fun hh => hnk (hh ▸ List.mem_map_of_mem Prod.fst he)
  simpa using hne

theorem setBucket_cons_self {m : LMap} {k : Key} {b b2 : List Seg}
    (hnk : k ∉ m.map Prod.fst) : setBucket ((k, b) :: m) k b2 = (k, b2) :: m := by
  simp only [setBucket, List.map_cons, if_pos rfl, List.cons.injEq, true_and]
  have hid : ∀ e ∈ m, (if e.1 = k then (k, b2) else e) = e := by
    intro e he
    have hne : e.1 ≠ k := fun hh => hnk (hh ▸ List.mem_map_of_mem Prod.fst he)
    rw [if_neg hne]
  refine ⟨by simp, ?_⟩
  rw [List.map_congr_left hid]
  exact List.map_id m

theorem popLast_of_ne_nil {b : List Seg} (h : b ≠ []) :
    popLast b = some (b.getLast h, b.dropLast) := by
  rw [popLast, List.getLast?_eq_getLast b h]

theorem bucket_add_self (m : LMap) (k : Key) (l : Seg) :
    bucket (add m k l) k = bucket m k ++ [l] := by
  unfold add
  rcases hf : find m k with _ | b
  · rw [bucket_eq_nil_of_find_none hf]
    simp only [List.nil_append]
    induction m with
    | nil => simp [bucket_cons]
    | cons e m ih =>
      obtain ⟨k1, b1⟩ := e
      have hk1 : ¬ k1 = k := by
        intro hh
        subst hh
        simp [find] at hf
      rw [List.cons_append, bucket_cons, if_neg hk1]
      exact ih (by simpa [find, List.find?_cons, hk1] using hf)
  · rw [find_eq_bucket hf]
    exact bucket_setBucket_self m k (b ++ [l]) (find_mem_keys hf)

theorem bucket_add_ne (m : LMap) (k : Key) (l : Seg) {k' : Key} (h : k' ≠ k) :
    bucket (add m k l) k' = bucket m k' := by
  unfold add
  rcases hf : find m k with _ | b
  · induction m with
    | nil => simp [bucket_cons, Ne.symm h, bucket_nil]
    | cons e m ih =>
      obtain ⟨k1, b1⟩ := e
      have hk1 : ¬ k1 = k := by
        intro hh
        subst hh
        simp [find] at hf
      rw [List.cons_append, bucket_cons, bucket_cons]
      by_cases h2 : k1 = k'
      · simp [h2]
      · rw [if_neg h2, if_neg h2]
        exact ih (by simpa [find, List.find?_cons, hk1] using hf)
  · exact bucket_setBucket_ne m k (b ++ [l]) h

theorem find_none_keys {m : LMap} {k : Key} (h : find m k = none) :
    k ∉ m.map Prod.fst := by
  intro hk
  obtain ⟨e, he, hek⟩ := List.mem_map.mp hk
  unfold find at h
  rw [Option.map_eq_none', List.find?_eq_none] at h
  have hne : ¬ e.1 = k := by simpa using h e he
  exact hne hek

theorem keys_add_nodup {m : LMap} (k : Key) (l : Seg)
    (hnd : (m.map Prod.fst).Nodup) : ((add m k l).map Prod.fst).Nodup := by
  unfold add
  rcases hf : find m k with _ | b
  · rw [List.map_append]
    simp only [List.map_cons, List.map_nil]
    rw [List.nodup_append]
    refine ⟨hnd, List.nodup_singleton k, ?_⟩
    intro a ha hb
    simp only [List.mem_singleton] at hb
    subst hb
    exact find_none_keys hf ha
  · rw [keys_setBucket]
    exact hnd

theorem nonempty_add {m : LMap} (k : Key) (l : Seg)
    (hne : ∀ e ∈ m, e.2 ≠ []) : ∀ e ∈ add m k l, e.2 ≠ [] := by
  intro e he
  unfold add at he
  rcases hf : find m k with _ | b
  · rw [hf] at he
    rcases List.mem_append.mp he with h | h
    · exact hne e h
    · simp only [List.mem_singleton] at h
      subst h
      simp
  · rw [hf] at he
    rcases mem_setBucket he with h | h
    · subst h
      simp
    · exact hne e h

end LineMap

/-- Helper: a segment found in some bucket is a remaining segment registered
under one of its endpoint keys. -/
theorem InvS.mem_bucket {m : LMap} {S : List Seg} (h : InvS m S) {k : Key}
    {l : Seg} (hl : l ∈ bucket m k) : k ∈ lineKeys l ∧ l ∈ S := by
  have hc := h.2.2.2 k l
  have hpos : 0 < (bucket m k).count l := List.count_pos_iff.mpr hl
  by_cases hk : k ∈ lineKeys l
  · rw [if_pos hk] at hc
    rw [hc] at hpos
    exact ⟨hk, List.count_pos_iff.mp hpos⟩
  · rw [if_neg hk] at hc
    rw [hc] at hpos
    exact absurd hpos (by simp)

/-- Helper: stored buckets are nonempty. -/
theorem InvS.find_ne_nil {m : LMap} {S : List Seg} (h : InvS m S) {k : Key}
    {b : List Seg} (hf : LineMap.find m k = some b) : b ≠ [] :=
  h.2.2.1 (k, b) (LineMap.find_mem hf)

/-- Helper: popping one registration of a segment and deregistering it from
its other endpoint via `pop_other_line` succeeds, preserves the invariant with
the segment erased, and removes exactly two registrations. -/
theorem consume_step {m : LMap} {S : List Seg} {k : Key} {b : List Seg}
    {line : Seg} {b2 : List Seg}
    (hinv : InvS m S)
    (hfind : LineMap.find m k = some b)
    (hpop : LineMap.popLast b = some (line, b2)) :
    ∃ other m3,
      LineMap.pop_other_line
          (if b2 = [] then LineMap.eraseKey m k else LineMap.setBucket m k b2) k line
        = .ok (other, m3) ∧
      InvS m3 (S.erase line) ∧
      LineMap.size m3 + 2 = LineMap.size m ∧
      line ∈ S := by
  have hgoodS := hinv.1
  have hnd := hinv.2.1
  have hne := hinv.2.2.1
  have hcount := hinv.2.2.2
  have hb : bucket m k = b := LineMap.find_eq_bucket hfind
  have happ : b = b2 ++ [line] := LineMap.popLast_eq_some hpop
  have hlineb : line ∈ bucket m k := by
    rw [hb, happ]
    simp
  obtain ⟨hkmem, hlineS⟩ := hinv.mem_bucket hlineb
  obtain ⟨p, q, hpq, hkeys⟩ := hgoodS line hlineS
  have hlk : lineKeys line = [LineMap.key p, LineMap.key q] := by
    rw [hpq]
    rfl
  have hk2 : k = LineMap.key p ∨ k = LineMap.key q := by
    rw [hlk] at hkmem
    simpa using hkmem
  obtain ⟨other, hfindo, hkok, hcov⟩ :
      ∃ other, line.find? (fun pt => !(decide (LineMap.key pt = k))) = some other ∧
        LineMap.key other ≠ k ∧
        (∀ k', k' ∈ lineKeys line ↔ (k' = k ∨ k' = LineMap.key other)) := by
    rcases hk2 with hkp | hkq
    · subst hkp
      refine ⟨q, ?_, Ne.symm hkeys, ?_⟩
      · rw [hpq]
        rw [List.find?_cons_of_neg _ (by simp),
          List.find?_cons_of_pos _ (by simpa using Ne.symm hkeys)]
      · intro k'
        rw [hlk]
        simp
    · by_cases hkp : k = LineMap.key p
      · exact absurd (hkp.symm.trans hkq) hkeys
      · subst hkq
        refine ⟨p, ?_, fun hh => hkp hh.symm, ?_⟩
        · rw [hpq]
          rw [List.find?_cons_of_pos _ (by simpa using fun hh => hkp hh.symm)]
        · intro k'
          rw [hlk]
          simp [or_comm]
  -- the intermediate map with the first registration removed
  set m2 : LMap := if b2 = [] then LineMap.eraseKey m k else LineMap.setBucket m k b2
    with hm2
  have hbm2 : ∀ k', bucket m2 k' = if k' = k then b2 else bucket m k' := by
    intro k'
    by_cases hk' : k' = k
    · subst hk'
      by_cases hb2 : b2 = []
      · simp [hm2, hb2, LineMap.bucket_eraseKey]
      · rw [hm2, if_neg hb2, if_pos rfl]
        exact LineMap.bucket_setBucket_self _ _ b2 (LineMap.find_mem_keys hfind)
    · by_cases hb2 : b2 = []
      · rw [hm2, if_pos hb2, LineMap.bucket_eraseKey, if_neg hk', if_neg hk']
      · rw [hm2, if_neg hb2, if_neg hk']
        exact LineMap.bucket_setBucket_ne _ _ b2 hk'
  have hkeysm2 : (m2.map Prod.fst).Nodup := by
    by_cases hb2 : b2 = []
    · rw [hm2, if_pos hb2]
      exact (LineMap.keys_eraseKey_sublist m k).nodup hnd
    · rw [hm2, if_neg hb2, LineMap.keys_setBucket]
      exact hnd
  have hnem2 : ∀ e ∈ m2, e.2 ≠ [] := by
    intro e he
    by_cases hb2 : b2 = []
    · rw [hm2, if_pos hb2] at he
      exact hne e (LineMap.mem_eraseKey he)
    · rw [hm2, if_neg hb2] at he
      rcases LineMap.mem_setBucket he with h | h
      · rw [h]
        exact hb2
      · exact hne e h
  have hsz2 : LineMap.size m2 + 1 = LineMap.size m := by
    by_cases hb2 : b2 = []
    · rw [hm2, if_pos hb2]
      have := LineMap.size_eraseKey_add m k hnd hfind
      rw [happ, hb2] at this
      simpa using this
    · rw [hm2, if_neg hb2]
      have := LineMap.size_setBucket_add m k b2 hnd hfind
      rw [happ] at this
      simp only [List.length_append, List.length_singleton] at this
      omega
  -- the second registration
  have hoklk : LineMap.key other ∈ lineKeys line := (hcov _).mpr (Or.inr rfl)
  have hbo : bucket m2 (LineMap.key other) = bucket m (LineMap.key other) := by
    rw [hbm2, if_neg hkok]
  have hcnto : ∀ l', (bucket m2 (LineMap.key other)).count l' =
      if LineMap.key other ∈ lineKeys l' then S.count l' else 0 := by
    intro l'
    rw [hbo]
    exact hcount _ l'
  have hlineo : line ∈ bucket m2 (LineMap.key other) := by
    apply List.count_pos_iff.mp
    rw [hcnto, if_pos hoklk]
    exact List.count_pos_iff.mpr hlineS
  obtain ⟨b', hfindb', hbb'⟩ := LineMap.find_isSome_of_bucket_ne
    (show bucket m2 (LineMap.key other) ≠ [] from by
      intro hnil
      rw [hnil] at hlineo
      simp at hlineo)
  have hlineb' : line ∈ b' := hbb' ▸ hlineo
  refine ⟨other, if b'.erase line = [] then LineMap.eraseKey m2 (LineMap.key other)
      else LineMap.setBucket m2 (LineMap.key other) (b'.erase line), ?_, ?_, ?_, hlineS⟩
  · simp only [LineMap.pop_other_line, hfindo, hfindb', if_pos hlineb']
  · -- invariant for the final map
    have hkeyb' : LineMap.key other ∈ m2.map Prod.fst := LineMap.find_mem_keys hfindb'
    constructor
    · intro l hl
      exact hgoodS l ((S.erase_sublist line).subset hl)
    constructor
    · by_cases hbe : b'.erase line = []
      · rw [if_pos hbe]
        exact (LineMap.keys_eraseKey_sublist m2 (LineMap.key other)).nodup hkeysm2
      · rw [if_neg hbe, LineMap.keys_setBucket]
        exact hkeysm2
    constructor
    · intro e he
      by_cases hbe : b'.erase line = []
      · rw [if_pos hbe] at he
        exact hnem2 e (LineMap.mem_eraseKey he)
      · rw [if_neg hbe] at he
        rcases LineMap.mem_setBucket he with h | h
        · rw [h]
          exact hbe
        · exact hnem2 e h
    · intro k' l'
      have hb3 : bucket (if b'.erase line = [] then LineMap.eraseKey m2 (LineMap.key other)
          else LineMap.setBucket m2 (LineMap.key other) (b'.erase line)) k' =
          if k' = LineMap.key other then b'.erase line else bucket m2 k' := by
        by_cases hk' : k' = LineMap.key other
        · subst hk'
          by_cases hbe : b'.erase line = []
          · simp [hbe, LineMap.bucket_eraseKey]
          · rw [if_neg hbe, if_pos rfl]
            exact LineMap.bucket_setBucket_self m2 _ _ hkeyb'
        · by_cases hbe : b'.erase line = []
          · rw [if_pos hbe, LineMap.bucket_eraseKey, if_neg hk', if_neg hk']
          · rw [if_neg hbe, if_neg hk']
            exact LineMap.bucket_setBucket_ne m2 _ _ hk'
      rw [hb3]
      by_cases hk' : k' = LineMap.key other
      · subst hk'
        rw [if_pos rfl, ← hbb', List.count_erase, hcnto]
        by_cases hl' : l' = line
        · subst hl'
          rw [if_pos hoklk, if_pos hoklk, List.count_erase_self]
          simp
        · rw [List.count_erase_of_ne hl']
          have hbeq : (if (line == l') = true then 1 else 0) = 0 := by
            simp
            exact fun hh => hl' hh.symm
          rw [hbeq, Nat.sub_zero]
      · rw [if_neg hk', hbm2]
        by_cases hkk : k' = k
        · subst hkk
          rw [if_pos rfl]
          have h1 := hcount k' l'
          rw [hb, happ] at h1
          simp only [List.count_append, List.count_singleton] at h1
          by_cases hl' : l' = line
          · subst hl'
            rw [if_pos hkmem] at h1
            rw [if_pos hkmem, List.count_erase_self]
            simp only [beq_self_eq_true, if_true] at h1
            omega
          · rw [List.count_erase_of_ne hl']
            have hbeq : (if (line == l') = true then 1 else 0) = 0 := by
              simp
              exact fun hh => hl' hh.symm
            rw [hbeq, Nat.add_zero] at h1
            exact h1
        · rw [if_neg hkk]
          have h1 := hcount k' l'
          by_cases hl' : l' = line
          · subst hl'
            have hnk : k' ∉ lineKeys l' := by
              rw [hcov k']
              push_neg
              exact ⟨hkk, hk'⟩
            rw [if_neg hnk] at h1
            rw [if_neg hnk]
            exact h1
          · rw [List.count_erase_of_ne hl']
            exact h1
  · have hbn : b' ≠ [] := by
      rintro rfl
      simp at hlineb'
    have hlen : (b'.erase line).length + 1 = b'.length := by
      rw [List.length_erase_of_mem hlineb']
      have hpos : 0 < b'.length := List.length_pos.mpr hbn
      omega
    have hfin : LineMap.size (if b'.erase line = [] then
        LineMap.eraseKey m2 (LineMap.key other)
        else LineMap.setBucket m2 (LineMap.key other) (b'.erase line)) + 1 =
        LineMap.size m2 := by
      by_cases hbe : b'.erase line = []
      · rw [if_pos hbe]
        have h2 := LineMap.size_eraseKey_add m2 (LineMap.key other) hkeysm2 hfindb'
        rw [hbe] at hlen
        simp only [List.length_nil, Nat.zero_add] at hlen
        omega
      · rw [if_neg hbe]
        have h2 := LineMap.size_setBucket_add m2 (LineMap.key other) (b'.erase line)
          hkeysm2 hfindb'
        omega
    omega

/-- Helper: `take_line` on a nonempty invariant-respecting map succeeds and
consumes exactly one remaining segment. -/
theorem take_line_spec {m : LMap} {S : List Seg} (hinv : InvS m S) (hm : m ≠ []) :
    ∃ line m3, LineMap.take_line m = .ok (line, m3) ∧ InvS m3 (S.erase line) ∧
      LineMap.size m3 + 2 = LineMap.size m ∧ line ∈ S := by
  rcases m with _ | ⟨⟨k, b⟩, rest⟩
  · exact absurd rfl hm
  have hfind : LineMap.find ((k, b) :: rest) k = some b := by
    simp [LineMap.find]
  have hbne : b ≠ [] := hinv.2.2.1 (k, b) (by simp)
  have hpop := LineMap.popLast_of_ne_nil hbne
  have hknr : k ∉ rest.map Prod.fst := by
    have hnd := hinv.2.1
    simp only [List.map_cons, List.nodup_cons] at hnd
    exact hnd.1
  have hm2eq : (if b.dropLast = [] then rest else (k, b.dropLast) :: rest) =
      (if b.dropLast = [] then LineMap.eraseKey ((k, b) :: rest) k
       else LineMap.setBucket ((k, b) :: rest) k b.dropLast) := by
    by_cases hb2 : b.dropLast = []
    · rw [if_pos hb2, if_pos hb2, LineMap.eraseKey_cons_self hknr]
    · rw [if_neg hb2, if_neg hb2, LineMap.setBucket_cons_self hknr]
  obtain ⟨other, m3, hpol, hinv3, hsz, hlS⟩ := consume_step hinv hfind hpop
  refine ⟨b.getLast hbne, m3, ?_, hinv3, hsz, hlS⟩
  simp only [LineMap.take_line, hpop, hm2eq, hpol]

/-- Helper: `next_point` on an invariant-respecting map either reports no
continuation (the key is absent) or consumes one remaining segment. -/
theorem next_point_spec {m : LMap} {S : List Seg} (hinv : InvS m S) (pt : Point2) :
    (LineMap.next_point m pt = .ok none ∧ LineMap.find m (LineMap.key pt) = none) ∨
    (∃ q m3 line, LineMap.next_point m pt = .ok (some (q, m3)) ∧
      InvS m3 (S.erase line) ∧ LineMap.size m3 + 2 = LineMap.size m) := by
  rcases hf : LineMap.find m (LineMap.key pt) with _ | b
  · left
    exact ⟨by simp [LineMap.next_point, hf], rfl⟩
  · right
    have hbne : b ≠ [] := hinv.find_ne_nil hf
    have hpop := LineMap.popLast_of_ne_nil hbne
    obtain ⟨other, m3, hpol, hinv3, hsz, _⟩ := consume_step hinv hf hpop
    refine ⟨other, m3, b.getLast hbne, ?_, hinv3, hsz⟩
    simp only [LineMap.next_point, hf, hpop, hpol]

/-- Helper: adding one good segment under both its endpoint keys preserves the
invariant with the segment appended to the remaining multiset. -/
theorem add_line_invS {m : LMap} {S : List Seg} {l : Seg} (hinv : InvS m S)
    (hgood : goodSeg l) :
    InvS (l.foldl (fun m pt => LineMap.add m (LineMap.key pt) l) m) (S ++ [l]) := by
  obtain ⟨p, q, rfl, hpq⟩ := hgood
  simp only [List.foldl_cons, List.foldl_nil]
  refine ⟨?_, ?_, ?_, ?_⟩
  · intro x hx
    rcases List.mem_append.mp hx with h | h
    · exact hinv.1 x h
    · simp only [List.mem_singleton] at h
      subst h
      exact ⟨p, q, rfl, hpq⟩
  · exact LineMap.keys_add_nodup _ _ (LineMap.keys_add_nodup _ _ hinv.2.1)
  · exact LineMap.nonempty_add _ _ (LineMap.nonempty_add _ _ hinv.2.2.1)
  · intro k x
    have hkeysl : lineKeys [p, q] = [LineMap.key p, LineMap.key q] := rfl
    have hc := hinv.2.2.2 k x
    by_cases hkq : k = LineMap.key q
    · subst hkq
      rw [LineMap.bucket_add_self, List.count_append,
        LineMap.bucket_add_ne _ _ _ (Ne.symm hpq), hc, List.count_singleton]
      have hkmem : LineMap.key q ∈ lineKeys [p, q] := by
        rw [hkeysl]
        simp
      by_cases hx : x = [p, q]
      · subst hx
        rw [if_pos hkmem, if_pos hkmem, List.count_append, List.count_singleton]
      · have hbeq : (if ([p, q] == x) = true then 1 else 0) = 0 := by
          simp
          exact fun hh => hx hh.symm
        rw [hbeq, Nat.add_zero, List.count_append, List.count_singleton, hbeq]
        by_cases hkl : LineMap.key q ∈ lineKeys x
        · rw [if_pos hkl, if_pos hkl]
          omega
        · rw [if_neg hkl, if_neg hkl]
    · by_cases hkp : k = LineMap.key p
      · subst hkp
        rw [LineMap.bucket_add_ne _ _ _ hkq, LineMap.bucket_add_self,
          List.count_append, hc, List.count_singleton]
        have hkmem : LineMap.key p ∈ lineKeys [p, q] := by
          rw [hkeysl]
          simp
        by_cases hx : x = [p, q]
        · subst hx
          rw [if_pos hkmem, if_pos hkmem, List.count_append, List.count_singleton]
        · have hbeq : (if ([p, q] == x) = true then 1 else 0) = 0 := by
            simp
            exact fun hh => hx hh.symm
          rw [hbeq, Nat.add_zero, List.count_append, List.count_singleton, hbeq]
          by_cases hkl : LineMap.key p ∈ lineKeys x
          · rw [if_pos hkl, if_pos hkl]
            omega
          · rw [if_neg hkl, if_neg hkl]
      · rw [LineMap.bucket_add_ne _ _ _ hkq, LineMap.bucket_add_ne _ _ _ hkp, hc]
        by_cases hx : x = [p, q]
        · subst hx
          have hnk : k ∉ lineKeys [p, q] := by
            rw [hkeysl]
            simp only [List.mem_cons, List.mem_singleton, List.not_mem_nil]
            push_neg
            exact ⟨hkp, hkq, by simp⟩
          rw [if_neg hnk, if_neg hnk]
        · by_cases hkl : k ∈ lineKeys x
          · rw [if_pos hkl, if_pos hkl, List.count_append, List.count_singleton]
            have hbeq : (if ([p, q] == x) = true then 1 else 0) = 0 := by
              simp
              exact fun hh => hx hh.symm
            rw [hbeq]
            omega
          · rw [if_neg hkl, if_neg hkl]

/-- Helper: building the map from good segments establishes the invariant. -/
theorem ofLines_fold_invS : ∀ (lines : List Seg) (m : LMap) (S : List Seg),
    InvS m S → (∀ l ∈ lines, goodSeg l) →
    InvS (lines.foldl
      (fun m line => line.foldl (fun m pt => LineMap.add m (LineMap.key pt) line) m) m)
      (S ++ lines)
  | [], m, S, hinv, _ => by simpa using hinv
  | l :: ls, m, S, hinv, hgood => by
    simp only [List.foldl_cons]
    have h1 := add_line_invS hinv (hgood l (by simp))
    have h2 := ofLines_fold_invS ls _ _ h1 (fun x hx => hgood x (by simp [hx]))
    simpa [List.append_assoc] using h2

theorem invS_ofLines {lines : List Seg} (hgood : ∀ l ∈ lines, goodSeg l) :
    InvS (LineMap.ofLines lines) lines := by
  have hbase : InvS [] [] := by
    refine ⟨by simp, by simp, by simp, ?_⟩
    intro k l
    rw [LineMap.bucket_nil]
    simp
  have h := ofLines_fold_invS lines [] [] hbase hgood
  simpa [LineMap.ofLines] using h

/-- Helper: with enough fuel and the invariant, the path-growing loop always
completes without shrinking below zero and never raises. -/
theorem growPath_total : ∀ (fuel : ℕ) (m : LMap) (S : List Seg) (path : Seg),
    InvS m S → path ≠ [] → LineMap.size m < fuel →
    ∃ pth m' S', growPath fuel m path = .ok (pth, m') ∧ InvS m' S' ∧
      LineMap.size m' ≤ LineMap.size m ∧ pth ≠ [] := by
  intro fuel
  induction fuel with
  | zero =>
    intro m S path _ _ h
    omega
  | succ fuel ih =>
    intro m S path hinv hpne hsz
    rcases hlast : path.getLast? with _ | last
    · exact absurd (List.getLast?_eq_none_iff.mp hlast) hpne
    · rcases next_point_spec hinv last with ⟨hnp, _⟩ | ⟨q2, m3, line, hnp, hinv3, hsz3⟩
      · refine ⟨path, m, S, ?_, hinv, le_rfl, hpne⟩
        simp only [growPath, hlast, hnp]
      · obtain ⟨pth, m', S', hgp, hinv', hle, hne2⟩ :=
          ih m3 (S.erase line) (path ++ [q2]) hinv3 (by simp) (by omega)
        refine ⟨pth, m', S', ?_, hinv', by omega, hne2⟩
        simp only [growPath, hlast, hnp]
        exact hgp

/-- Helper: with enough fuel and the invariant, the stitcher loop completes. -/
theorem pathTrace_total : ∀ (fuel : ℕ) (m : LMap) (S : List Seg),
    InvS m S → LineMap.size m < fuel → ∃ tr, pathTrace fuel m = .ok tr := by
  intro fuel
  induction fuel with
  | zero =>
    intro m S _ h
    omega
  | succ fuel ih =>
    intro m S hinv hsz
    by_cases hm : m = []
    · exact ⟨[], by simp [pathTrace, hm]⟩
    · obtain ⟨line, m3, htk, hinv3, hsz3, hlS⟩ := take_line_spec hinv hm
      obtain ⟨p0, q0, hl0, _⟩ := hinv.1 line hlS
      have hlne : line ≠ [] := by
        rw [hl0]
        simp
      obtain ⟨pth, m4, S', hgp, hinv4, hle4, _⟩ :=
        growPath_total (LineMap.size m3 + 1) m3 (S.erase line) line hinv3 hlne (by omega)
      obtain ⟨tr, htr⟩ := ih m4 S' hinv4 (by omega)
      refine ⟨(pth, m4) :: tr, ?_⟩
      simp only [pathTrace, if_neg hm, htk, hgp, htr]

/-- Helper: `next_point` answers `ok none` only when the key is absent. -/
theorem next_point_ok_none {m : LMap} {pt : Point2}
    (h : LineMap.next_point m pt = .ok none) :
    LineMap.find m (LineMap.key pt) = none := by
  rcases hf : LineMap.find m (LineMap.key pt) with _ | b
  · rfl
  · exfalso
    simp only [LineMap.next_point, hf] at h
    rcases hp : LineMap.popLast b with _ | ⟨line, b2⟩
    · simp [hp] at h
    · rcases hpo : LineMap.pop_other_line
          (if b2 = [] then LineMap.eraseKey m (LineMap.key pt)
           else LineMap.setBucket m (LineMap.key pt) b2) (LineMap.key pt) line
        with e | r
      · simp [hp, hpo] at h
      · simp [hp, hpo] at h

/-- Helper: a successful `growPath` ends at a point whose key has no unused
segment left in the final map. -/
theorem growPath_last : ∀ (fuel : ℕ) (m : LMap) (path pth : Seg) (m' : LMap),
    growPath fuel m path = .ok (pth, m') →
    ∃ last, pth.getLast? = some last ∧ LineMap.find m' (LineMap.key last) = none := by
  intro fuel
  induction fuel with
  | zero =>
    intro m path pth m' h
    exact absurd h (by simp [growPath])
  | succ fuel ih =>
    intro m path pth m' h
    rcases hlast : path.getLast? with _ | last
    · simp [growPath, hlast] at h
    · rcases hnp : LineMap.next_point m last with e | o
      · simp [growPath, hlast, hnp] at h
      · rcases o with _ | ⟨q2, m2⟩
        · simp only [growPath, hlast, hnp, Except.ok.injEq, Prod.mk.injEq] at h
          obtain ⟨h1, h2⟩ := h
          subst h1
          subst h2
          exact ⟨last, hlast, next_point_ok_none hnp⟩
        · simp only [growPath, hlast, hnp] at h
          exact ih _ _ _ _ h

/-- Helper: every emitted (path, state) pair of the stitcher loop has no
continuation left at the key of the path's last point. -/
theorem pathTrace_emit : ∀ (fuel : ℕ) (m : LMap) (tr : List (Seg × LMap)),
    pathTrace fuel m = .ok tr →
    ∀ e ∈ tr, ∃ last, e.1.getLast? = some last ∧
      LineMap.find e.2 (LineMap.key last) = none := by
  intro fuel
  induction fuel with
  | zero =>
    intro m tr h e he
    simp only [pathTrace] at h
    by_cases hm : m = []
    · rw [if_pos hm] at h
      simp only [Except.ok.injEq] at h
      subst h
      simp at he
    · rw [if_neg hm] at h
      simp at h
  | succ fuel ih =>
    intro m tr h e he
    simp only [pathTrace] at h
    by_cases hm : m = []
    · rw [if_pos hm] at h
      simp only [Except.ok.injEq] at h
      subst h
      simp at he
    · rw [if_neg hm] at h
      rcases htk : LineMap.take_line m with e1 | ⟨line, m2⟩
      · simp [htk] at h
      · rcases hgp : growPath (LineMap.size m2 + 1) m2 line with e1 | ⟨pth, m3⟩
        · simp [htk, hgp] at h
        · rcases htr : pathTrace fuel m3 with e1 | rest
          · simp [htk, hgp, htr] at h
          · simp only [htk, hgp, htr, Except.ok.injEq] at h
            subst h
            rcases List.mem_cons.mp he with he1 | he1
            · subst he1
              exact growPath_last _ _ _ _ _ hgp
            · exact ih m3 rest htr e he1

/-- C9 witness: the flat-triangle run completes with a single writer call and
returns the empty tail. -/
theorem C9_writer_calls_vs_return_witness :
    (⟨4, 3, 0, [(1, 0, [])], []⟩ : RunResult).calls ≠ [] ∧
    (⟨4, 3, 0, [(1, 0, [])], []⟩ : RunResult).calls.map (fun c => c.1) =
      List.range' 1 (⟨4, 3, 0, [(1, 0, [])], []⟩ : RunResult).calls.length ∧
    (⟨4, 3, 0, [(1, 0, [])], []⟩ : RunResult).ret =
      ((⟨4, 3, 0, [(1, 0, [])], []⟩ : RunResult).calls.map (fun c => c.2.2)).tail :=
  C9_writer_calls_vs_return flatTri 5 0 0 1 ⟨4, 3, 0, [(1, 0, [])], []⟩
    (by with_unfolding_all decide)


/-- C6 counterexample: for the two-segment open chain A-B-C fed as
`[[B,A],[B,C]]` (B = (0,0), A = (1,0), C = (2,0)), the first path `path_lines`
emits is `[B, C]`, and at the moment of its emission the unused segment
`[B, A]` is still registered under the key of the emitted path's FIRST point
B, so two emitted paths could be joined at a shared endpoint key: the claim's
maximality at both ends is false. -/
theorem C6_first_point_not_maximal :
    pathLinesTrace stitchCex =
      .ok [([((0:ℚ),(0:ℚ)), ((2:ℚ),(0:ℚ))],
             [(LineMap.key ((0:ℚ),(0:ℚ)), [[((0:ℚ),(0:ℚ)), ((1:ℚ),(0:ℚ))]]),
              (LineMap.key ((1:ℚ),(0:ℚ)), [[((0:ℚ),(0:ℚ)), ((1:ℚ),(0:ℚ))]])]),
            ([((0:ℚ),(0:ℚ)), ((1:ℚ),(0:ℚ))], [])] ∧
    LineMap.find
        [(LineMap.key ((0:ℚ),(0:ℚ)), [[((0:ℚ),(0:ℚ)), ((1:ℚ),(0:ℚ))]]),
         (LineMap.key ((1:ℚ),(0:ℚ)), [[((0:ℚ),(0:ℚ)), ((1:ℚ),(0:ℚ))]])]
        (LineMap.key ((0:ℚ),(0:ℚ))) = some [[((0:ℚ),(0:ℚ)), ((1:ℚ),(0:ℚ))]] ∧
    ([((0:ℚ),(0:ℚ)), ((2:ℚ),(0:ℚ))] : Seg).head? = some ((0:ℚ),(0:ℚ)) ∧
    path_lines stitchCex =
      .ok [[((0:ℚ),(0:ℚ)), ((2:ℚ),(0:ℚ))], [((0:ℚ),(0:ℚ)), ((1:ℚ),(0:ℚ))]] := by
  refine ⟨by with_unfolding_all decide, by with_unfolding_all decide,
    by with_unfolding_all decide, by with_unfolding_all decide⟩

/-- C6 amended: every path emitted by `path_lines` is maximal at its LAST
point: at the moment of emission no unused segment remains registered under
the key of the path's last point.  (The algorithm never extends a path
backward, so unused segments may remain under the key of the path's first
point.) -/
theorem C6_emitted_path_tail_maximal (lines : List Seg) (tr : List (Seg × LMap))
    (htr : pathLinesTrace lines = .ok tr) :
    ∀ e ∈ tr, ∃ last, e.1.getLast? = some last ∧
      LineMap.find e.2 (LineMap.key last) = none := by
  exact pathTrace_emit _ _ _ htr

/-- C6 witness: the counterexample input itself instantiates the amended
theorem at its first emitted path, which is maximal at its last point. -/
theorem C6_emitted_path_tail_maximal_witness :
    ∃ last, ([((0:ℚ),(0:ℚ)), ((2:ℚ),(0:ℚ))] : Seg).getLast? = some last ∧
      LineMap.find
        ([(LineMap.key ((0:ℚ),(0:ℚ)), [[((0:ℚ),(0:ℚ)), ((1:ℚ),(0:ℚ))]]),
          (LineMap.key ((1:ℚ),(0:ℚ)), [[((0:ℚ),(0:ℚ)), ((1:ℚ),(0:ℚ))]])] : LMap)
        (LineMap.key last) = none :=
  C6_emitted_path_tail_maximal stitchCex
    [(([((0:ℚ),(0:ℚ)), ((2:ℚ),(0:ℚ))] : Seg),
       ([(LineMap.key ((0:ℚ),(0:ℚ)), [[((0:ℚ),(0:ℚ)), ((1:ℚ),(0:ℚ))]]),
         (LineMap.key ((1:ℚ),(0:ℚ)), [[((0:ℚ),(0:ℚ)), ((1:ℚ),(0:ℚ))]])] : LMap)),
     (([((0:ℚ),(0:ℚ)), ((1:ℚ),(0:ℚ))] : Seg), ([] : LMap))]
    (by with_unfolding_all decide)
    (([((0:ℚ),(0:ℚ)), ((2:ℚ),(0:ℚ))] : Seg),
      ([(LineMap.key ((0:ℚ),(0:ℚ)), [[((0:ℚ),(0:ℚ)), ((1:ℚ),(0:ℚ))]]),
        (LineMap.key ((1:ℚ),(0:ℚ)), [[((0:ℚ),(0:ℚ)), ((1:ℚ),(0:ℚ))]])] : LMap))
    (List.mem_cons_self _ _)

theorem runRelaxed_nil (s : PSt) : runRelaxed s [] = s := rfl

theorem runRelaxed_cons (s : PSt) (l : String) (ls : List String) :
    runRelaxed s (l :: ls) = runRelaxed (stepRelaxed s l) ls := rfl

theorem runRelaxed_rejected (ls : List String) : runRelaxed .rejected ls = .rejected := by
  induction ls with
  | nil => rfl
  | cons l ls ih => rw [runRelaxed_cons]; exact ih

theorem runRelaxed_accepted (ls : List String) : runRelaxed .accepted ls = .accepted := by
  induction ls with
  | nil => rfl
  | cons l ls ih => rw [runRelaxed_cons]; exact ih

theorem runStrict_nil (s : PSt) : runStrict s [] = s := rfl

theorem runStrict_cons (s : PSt) (l : String) (ls : List String) :
    runStrict s (l :: ls) = runStrict (stepStrict s l) ls := rfl

theorem runStrict_rejected (ls : List String) : runStrict .rejected ls = .rejected := by
  induction ls with
  | nil => rfl
  | cons l ls ih => rw [runStrict_cons]; exact ih

/-- A `facet`-prefixed line is never the `endsolid` trailer. -/
theorem facet_line_ne_trailer {name l : String} (h : pyStartsWith "facet" l = true) :
    l ≠ "endsolid " ++ name := by
  intro hl
  subst hl
  unfold pyStartsWith at h
  rw [String.data_append] at h
  have hfalse : List.isPrefixOf "facet".data ("endsolid ".data ++ name.data) = false := by
    rfl
  rw [hfalse] at h
  exact Bool.noConfusion h

theorem readVertices_consumes : ∀ (ls : List String) (vs : List (List ℚ))
    (ls2 : List String), readVertices ls = .ok (vs, ls2) → ls2.length < ls.length := by
  intro ls
  induction ls with
  | nil =>
    intro vs ls2 h
    simp [readVertices] at h
  | cons l rest ih =>
    intro vs ls2 h
    by_cases hl : l = "endloop"
    · subst hl
      simp [readVertices] at h
      obtain ⟨h1, h2⟩ := h
      subst h2
      simp
    · rcases hw : words l with _ | ⟨p, nums⟩
      · simp [readVertices, hl, hw] at h
      · by_cases hp : p = "vertex"
        · subst hp
          rcases hm : parseFloats nums with _ | v
          · simp [readVertices, hl, hw, hm] at h
          · rcases hrec : readVertices rest with e | ⟨vs2, ls3⟩
            · simp [readVertices, hl, hw, hm, hrec] at h
            · simp [readVertices, hl, hw, hm, hrec] at h
              obtain ⟨h1, h2⟩ := h
              subst h2
              have := ih vs2 ls3 hrec
              simp only [List.length_cons]
              omega
        · simp [readVertices, hl, hw, hp] at h

theorem readFacet_consumes : ∀ (ls : List String) (v : List (List ℚ))
    (ls2 : List String), readFacet ls = .ok (v, ls2) → ls2.length < ls.length := by
  intro ls v ls2 h
  rcases ls with _ | ⟨l, rest⟩
  · simp [readFacet] at h
  · by_cases hl : l = "outer loop"
    · subst hl
      rcases hrv : readVertices rest with e | ⟨vs, lsA⟩
      · simp [readFacet, hrv] at h
      · have hA := readVertices_consumes rest vs lsA hrv
        rcases lsA with _ | ⟨l2, rest2⟩
        · simp [readFacet, hrv] at h
        · by_cases h2 : l2 = "endfacet"
          · subst h2
            simp [readFacet, hrv] at h
            obtain ⟨h1, h2⟩ := h
            subst h2
            simp only [List.length_cons] at hA ⊢
            omega
          · simp [readFacet, hrv, h2] at h
    · simp [readFacet, hl] at h

/-- The vertex loop and the relaxed automaton agree. -/
theorem readVertices_dfa : ∀ (ls : List String) (name : String) (k : ℕ),
    (∀ vs ls2, readVertices ls = .ok (vs, ls2) →
      runRelaxed (.inVerts name k) ls = runRelaxed (.expectEndfacet name) ls2) ∧
    (∀ e, readVertices ls = .error e → runRelaxed (.inVerts name k) ls ≠ .accepted) := by
  intro ls
  induction ls with
  | nil =>
    intro name k
    refine ⟨fun vs ls2 h => by simp [readVertices] at h, fun e _ => ?_⟩
    rw [runRelaxed_nil]
    simp
  | cons l rest ih =>
    intro name k
    by_cases hl : l = "endloop"
    · subst hl
      constructor
      · intro vs ls2 h
        simp [readVertices] at h
        obtain ⟨h1, h2⟩ := h
        subst h2
        rw [runRelaxed_cons,
          show stepRelaxed (.inVerts name k) "endloop" = .expectEndfacet name
            from by simp [stepRelaxed]]
      · intro e h
        simp [readVertices] at h
    · have hstep : ∀ s', stepRelaxed (.inVerts name k) l = s' →
          runRelaxed (.inVerts name k) (l :: rest) = runRelaxed s' rest := by
        intro s' hs'
        rw [runRelaxed_cons, hs']
      rcases hw : words l with _ | ⟨p, nums⟩
      · refine ⟨fun vs ls2 h => by simp [readVertices, hl, hw] at h, fun e _ => ?_⟩
        rw [hstep .rejected (by simp [stepRelaxed, hl, hw]), runRelaxed_rejected]
        simp
      · by_cases hp : p = "vertex"
        · subst hp
          rcases hm : parseFloats nums with _ | v
          · refine ⟨fun vs ls2 h => by simp [readVertices, hl, hw, hm] at h,
              fun e _ => ?_⟩
            rw [hstep .rejected (by simp [stepRelaxed, hl, hw, hm]), runRelaxed_rejected]
            simp
          · have hstep2 : runRelaxed (.inVerts name k) (l :: rest) =
                runRelaxed (.inVerts name (k + 1)) rest :=
              hstep _ (by simp [stepRelaxed, hl, hw, hm])
            constructor
            · intro vs ls2 h
              rcases hrec : readVertices rest with e | ⟨vs2, ls3⟩
              · simp [readVertices, hl, hw, hm, hrec] at h
              · simp [readVertices, hl, hw, hm, hrec] at h
                rw [hstep2, (ih name (k + 1)).1 vs2 ls3 hrec, h.2]
            · intro e h
              rcases hrec : readVertices rest with e2 | ⟨vs2, ls3⟩
              · rw [hstep2]
                exact (ih name (k + 1)).2 e2 hrec
              · simp [readVertices, hl, hw, hm, hrec] at h
        · refine ⟨fun vs ls2 h => by simp [readVertices, hl, hw, hp] at h,
            fun e _ => ?_⟩
          rw [hstep .rejected (by simp [stepRelaxed, hl, hw, hp]), runRelaxed_rejected]
          simp

/-- The facet-block reader and the relaxed automaton agree. -/
theorem readFacet_dfa (ls : List String) (name : String) :
    (∀ v ls2, readFacet ls = .ok (v, ls2) →
      runRelaxed (.expectOuter name) ls = runRelaxed (.expectBlock name) ls2) ∧
    (∀ e, readFacet ls = .error e → runRelaxed (.expectOuter name) ls ≠ .accepted) := by
  rcases ls with _ | ⟨l, rest⟩
  · refine ⟨fun v ls2 h => by simp [readFacet] at h, fun e _ => ?_⟩
    rw [runRelaxed_nil]
    simp
  · by_cases hl : l = "outer loop"
    · subst hl
      have hstep : runRelaxed (.expectOuter name) ("outer loop" :: rest) =
          runRelaxed (.inVerts name 0) rest := by
        rw [runRelaxed_cons,
          show stepRelaxed (.expectOuter name) "outer loop" = .inVerts name 0
            from by simp [stepRelaxed]]
      rcases hrv : readVertices rest with e | ⟨vs, lsA⟩
      · refine ⟨fun v ls2 h => by simp [readFacet, hrv] at h, fun e2 _ => ?_⟩
        rw [hstep]
        exact (readVertices_dfa rest name 0).2 e hrv
      · have hA : runRelaxed (.inVerts name 0) rest =
            runRelaxed (.expectEndfacet name) lsA :=
          (readVertices_dfa rest name 0).1 vs lsA hrv
        rcases lsA with _ | ⟨l2, rest2⟩
        · refine ⟨fun v ls2 h => by simp [readFacet, hrv] at h, fun e _ => ?_⟩
          rw [hstep, hA, runRelaxed_nil]
          simp
        · by_cases h2 : l2 = "endfacet"
          · subst h2
            constructor
            · intro v ls2 h
              simp [readFacet, hrv] at h
              obtain ⟨h1, h2⟩ := h
              subst h2
              rw [hstep, hA, runRelaxed_cons,
                show stepRelaxed (.expectEndfacet name) "endfacet" = .expectBlock name
                  from by simp [stepRelaxed]]
            · intro e h
              simp [readFacet, hrv] at h
          · refine ⟨fun v ls2 h => by simp [readFacet, hrv, h2] at h, fun e _ => ?_⟩
            rw [hstep, hA, runRelaxed_cons,
              show stepRelaxed (.expectEndfacet name) l2 = .rejected by
                simp [stepRelaxed, h2],
              runRelaxed_rejected]
            simp
    · refine ⟨fun v ls2 h => by simp [readFacet, hl] at h, fun e _ => ?_⟩
      rw [runRelaxed_cons,
        show stepRelaxed (.expectOuter name) l = .rejected by simp [stepRelaxed, hl],
        runRelaxed_rejected]
      simp

/-- The facet-block loop plus trailer check and the relaxed automaton agree. -/
theorem readFacets_dfa : ∀ (fuel : ℕ) (ls : List String) (name : String),
    ls.length < fuel →
    (∀ fs last ls3, readFacets fuel ls = .ok (fs, last, ls3) →
      (runRelaxed (.expectBlock name) ls = .accepted ↔ last = "endsolid " ++ name)) ∧
    (∀ e, readFacets fuel ls = .error e →
      runRelaxed (.expectBlock name) ls ≠ .accepted) := by
  intro fuel
  induction fuel with
  | zero =>
    intro ls name h
    omega
  | succ fuel ih =>
    intro ls name hlen
    rcases ls with _ | ⟨line, rest⟩
    · constructor
      · intro fs last ls3 h
        simp [readFacets] at h
        rw [runRelaxed_nil, ← h.2.1]
        constructor
        · intro hc
          exact absurd hc (by simp)
        · intro hc
          have hlc := congrArg String.length hc
          rw [String.length_append] at hlc
          have h9 : "endsolid ".length = 9 := rfl
          have h0 : "".length = 0 := rfl
          omega
      · intro e h
        simp [readFacets] at h
    · by_cases hf : pyStartsWith "facet" line = true
      · have hstep : runRelaxed (.expectBlock name) (line :: rest) =
            runRelaxed (.expectOuter name) rest := by
          rw [runRelaxed_cons,
            show stepRelaxed (.expectBlock name) line = .expectOuter name from by
              simp [stepRelaxed, hf, facet_line_ne_trailer hf]]
        rcases hrf : readFacet rest with e | ⟨v, ls2⟩
        · refine ⟨fun fs last ls3 h => by simp [readFacets, hf, hrf] at h,
            fun e2 _ => ?_⟩
          rw [hstep]
          exact (readFacet_dfa rest name).2 e hrf
        · have hB : runRelaxed (.expectOuter name) rest =
              runRelaxed (.expectBlock name) ls2 :=
            (readFacet_dfa rest name).1 v ls2 hrf
          have hlen2 : ls2.length < fuel := by
            have := readFacet_consumes rest v ls2 hrf
            simp only [List.length_cons] at hlen
            omega
          constructor
          · intro fs last ls3 h
            rcases hrec : readFacets fuel ls2 with e | ⟨fs2, last2, ls4⟩
            · simp [readFacets, hf, hrf, hrec] at h
            · simp [readFacets, hf, hrf, hrec] at h
              rw [hstep, hB, ← h.2.1]
              exact (ih ls2 name hlen2).1 fs2 last2 ls4 hrec
          · intro e h
            rcases hrec : readFacets fuel ls2 with e2 | ⟨fs2, last2, ls4⟩
            · rw [hstep, hB]
              exact (ih ls2 name hlen2).2 e2 hrec
            · simp [readFacets, hf, hrf, hrec] at h
      · constructor
        · intro fs last ls3 h
          simp [readFacets, hf] at h
          rw [← h.2.1, runRelaxed_cons]
          by_cases ht : line = "endsolid " ++ name
          · rw [show stepRelaxed (.expectBlock name) line = .accepted from by
              simp [stepRelaxed, ht], runRelaxed_accepted]
            simp [ht]
          · rw [show stepRelaxed (.expectBlock name) line = .rejected from by
              simp [stepRelaxed, ht, hf], runRelaxed_rejected]
            simp [ht]
        · intro e h
          simp [readFacets, hf] at h

/-- `parseText` succeeds exactly on the language of the relaxed automaton. -/
theorem parseText_isOk_iff (ls : List String) :
    (parseText ls).isOk = true ↔ relaxedAccepts ls = true := by
  rcases ls with _ | ⟨line, rest⟩
  · simp [parseText, relaxedAccepts, runRelaxed_nil, Except.isOk, Except.toBool]
  · rcases hw : words line with _ | ⟨p, ws⟩
    · simp only [parseText, hw, relaxedAccepts, runRelaxed_cons,
        show stepRelaxed .expectHeader line = .rejected from by simp [stepRelaxed, hw],
        runRelaxed_rejected]
      simp [Except.isOk, Except.toBool]
    · by_cases hp : p = "solid"
      · subst hp
        have hstep : runRelaxed .expectHeader (line :: rest) =
            runRelaxed (.expectBlock (joinWords ws)) rest := by
          rw [runRelaxed_cons,
            show stepRelaxed .expectHeader line = .expectBlock (joinWords ws) from by
              simp [stepRelaxed, hw]]
        have hlen : rest.length < rest.length + 1 := by omega
        rcases hrf : readFacets (rest.length + 1) rest with e | ⟨fs, last, ls3⟩
        · have hna := (readFacets_dfa (rest.length + 1) rest (joinWords ws) hlen).2 e hrf
          simp only [parseText, hw, if_pos rfl, hrf, relaxedAccepts, hstep]
          simp only [Except.isOk, Except.toBool]
          constructor
          · intro hc
            exact absurd hc (by simp)
          · intro hc
            exact absurd hc (by simpa using hna)
        · have hiff := (readFacets_dfa (rest.length + 1) rest (joinWords ws) hlen).1
            fs last ls3 hrf
          simp only [parseText, hw, if_pos rfl, hrf, relaxedAccepts, hstep]
          by_cases ht : last = "endsolid " ++ joinWords ws
          · rw [if_pos ht]
            simp only [Except.isOk, Except.toBool]
            simp [hiff, ht]
          · rw [if_neg ht]
            simp only [Except.isOk, Except.toBool]
            simp [hiff, ht]
      · simp only [parseText, hw, if_neg hp, relaxedAccepts, runRelaxed_cons,
          show stepRelaxed .expectHeader line = .rejected from by
            simp [stepRelaxed, hw, hp],
          runRelaxed_rejected]
        simp [Except.isOk, Except.toBool]

/-- Each strict-automaton step either agrees with the relaxed step or
rejects. -/
theorem step_mono (s : PSt) (l : String) :
    stepStrict s l = stepRelaxed s l ∨ stepStrict s l = .rejected := by
  cases s with
  | expectHeader => left; rfl
  | expectBlock name => left; rfl
  | expectOuter name => left; rfl
  | inVerts name k =>
    by_cases hl : l = "endloop"
    · by_cases hk : k = 3
      · left
        simp [stepStrict, stepRelaxed, hl, hk]
      · right
        simp [stepStrict, stepRelaxed, hl, hk]
    · rcases hw : words l with _ | ⟨p, nums⟩
      · left
        simp [stepStrict, stepRelaxed, hl, hw]
      · by_cases hp : p = "vertex"
        · subst hp
          by_cases hc : nums.length = 3 ∧ (parseFloats nums).isSome = true
          · left
            simp [stepStrict, stepRelaxed, hl, hw, hc.1, hc.2]
          · right
            simp only [stepStrict, if_neg hl, hw]
            rw [if_neg (by simpa using hc)]
        · left
          simp [stepStrict, stepRelaxed, hl, hw, hp]
  | expectEndfacet name => left; rfl
  | accepted => right; rfl
  | rejected => left; rfl

/-- Acceptance by the strict automaton implies acceptance by the relaxed
one. -/
theorem run_mono : ∀ (ls : List String) (s : PSt),
    runStrict s ls = .accepted → runRelaxed s ls = .accepted := by
  intro ls
  induction ls with
  | nil =>
    intro s h
    rw [runStrict_nil] at h
    rw [runRelaxed_nil, h]
  | cons l rest ih =>
    intro s h
    rw [runStrict_cons] at h
    rw [runRelaxed_cons]
    rcases step_mono s l with heq | hrej
    · rw [← heq]
      exact ih _ h
    · rw [hrej, runStrict_rejected] at h
      exact absurd h (by simp)

/-- C10: if every input segment has two endpoints with distinct quantization
keys (the shape `slice_shape_at` guarantees), `path_lines` completes without
error: the lookup of a consumed segment's other endpoint always succeeds.  On
an input violating the precondition - a segment whose endpoints share a key -
`path_lines` raises instead of returning (the Python code leaves
`other_point` unbound and hits a `NameError`). -/
theorem C10_distinct_keys_no_error (lines : List Seg)
    (h : forall l, l ∈ lines → ∃ p q, l = [p, q] ∧ LineMap.key p ≠ LineMap.key q) :
    (∃ paths, path_lines lines = .ok paths) ∧
    (∃ e, path_lines [[((0:ℚ), (0:ℚ)), ((0:ℚ), (0:ℚ))]] = .error e) := by
  constructor
  · have hinv : InvS (LineMap.ofLines lines) lines := invS_ofLines h
    obtain ⟨tr, htr⟩ := pathTrace_total (LineMap.size (LineMap.ofLines lines) + 1)
      (LineMap.ofLines lines) lines hinv (by omega)
    exact ⟨tr.map (fun e => e.1),
      by simp only [path_lines, pathLinesTrace, htr, Except.map]⟩
  · exact ⟨"NameError: local variable other_point referenced before assignment",
      by with_unfolding_all decide⟩

/-- C10 witness: a concrete one-segment input with distinct endpoint keys. -/
theorem C10_distinct_keys_no_error_witness :
    (∃ paths, path_lines [[((0:ℚ), (0:ℚ)), ((1:ℚ), (0:ℚ))]] = .ok paths) ∧
    (∃ e, path_lines [[((0:ℚ), (0:ℚ)), ((0:ℚ), (0:ℚ))]] = .error e) :=
  C10_distinct_keys_no_error [[((0:ℚ), (0:ℚ)), ((1:ℚ), (0:ℚ))]]
    (by
      intro l hl
      rw [List.mem_singleton] at hl
      subst hl
      exact ⟨((0:ℚ), (0:ℚ)), ((1:ℚ), (0:ℚ)), rfl, by with_unfolding_all decide⟩)

/-- C7 counterexample: a text mesh whose facet block has four vertex lines
deviates from the claimed exactly-three-vertex grammar, yet `parseText`
accepts it: the loader does not accept "exactly" the claimed grammar. -/
theorem C7_three_vertices_not_enforced :
    (parseText fourVertexMesh).isOk = true ∧
    strictAccepts fourVertexMesh = false ∧
    relaxedAccepts fourVertexMesh = true := by
  refine ⟨by with_unfolding_all decide, by with_unfolding_all decide,
    by with_unfolding_all decide⟩

/-- C7 amended: the text loader accepts exactly the relaxed grammar (header
`solid <name>`; blocks of a `facet`-prefixed line, `outer loop`, any number
of `vertex <floats>` lines, `endloop`, `endfacet`; a trailer
`endsolid <name>` matching the header name, with any input after it
ignored), failing with a `ValueError`/`IndexError` naming the offending line
and expected token on every other input; in particular every input
conforming to the claimed three-vertex grammar parses successfully. -/
theorem C7_loader_language (ls : List String) :
    ((parseText ls).isOk = true ↔ relaxedAccepts ls = true) ∧
    (strictAccepts ls = true → (parseText ls).isOk = true) := by
  refine ⟨parseText_isOk_iff ls, fun hs => ?_⟩
  rw [parseText_isOk_iff ls]
  unfold relaxedAccepts
  unfold strictAccepts at hs
  simp only [decide_eq_true_eq] at hs ⊢
  exact run_mono ls .expectHeader hs

/-- C7 witness: a conforming one-facet mesh is accepted by both grammars and
parsed successfully. -/
theorem C7_loader_language_witness :
    ((parseText goodMesh).isOk = true ↔ relaxedAccepts goodMesh = true) ∧
    (parseText goodMesh).isOk = true :=
  ⟨(C7_loader_language goodMesh).1,
   (C7_loader_language goodMesh).2 (by with_unfolding_all decide)⟩

end M2PY
